import Mathlib

/-!
Verification development for the ai-book notebook extension.

The embedding mirrors two source files:
  src/web/MessageJSONSerializer.ts  (serializer between bytes and notebook data)
  src/web/extension.ts              (translate-document driver and parameter editor)

Modelling conventions:
  * JavaScript strings and byte buffers are modelled as List Char; the
    TextEncoder / TextDecoder round trip between them is the identity at this
    level (byte-level UTF-8 coding is outside the model).
  * JSON values are modelled by the inductive type Json.  JSON numbers are
    restricted to the integer fragment (no fraction or exponent); floating
    point is outside the model.  Likewise UTF-16 lone surrogates are outside
    the model, so a \u escape denoting a surrogate code unit is rejected by
    the modelled parser.
  * JSON.parse and JSON.stringify are host builtins, not repository code;
    they are modelled here by an executable parser and printer over Json that
    follow the JSON grammar (with the restrictions above).  The printer
    models both the 2-space indented form used by serializeNotebook and the
    compact form used by the plain JSON.stringify call in extension.ts.
  * A JavaScript value that may be undefined is modelled as an Option.
-/

set_option maxRecDepth 4000

/-- A JSON value.  Numbers carry the integer fragment only (see header). -/
inductive Json where
  | null
  | bool (b : Bool)
  | num (n : Int)
  | str (s : List Char)
  | arr (elems : List Json)
  | obj (fields : List (List Char × Json))

/-- The double quote character, written via its code point. -/
def jsQuote : Char := Char.ofNat 34

/-- The backslash character. -/
def jsBackslash : Char := Char.ofNat 92

/-- The opening curly brace character. -/
def lCurly : Char := Char.ofNat 123

/-- The closing curly brace character. -/
def rCurly : Char := Char.ofNat 125

/-- Decimal digit character for a value below ten. -/
def digitChar (d : Nat) : Char := Char.ofNat (48 + d)

/-- Lowercase hexadecimal digit character, as produced by JSON.stringify
for control-character escapes. -/
def hexDigitChar (d : Nat) : Char :=
  if d < 10 then Char.ofNat (48 + d) else Char.ofNat (87 + d)

/-- Decimal digits of a natural number, most significant first; fuel-based so
that the definition is structural and evaluates inside the kernel. -/
def natCharsAux : Nat → Nat → List Char
  | 0, _ => []
  | fuel + 1, n =>
    if n < 10 then [digitChar n]
    else natCharsAux fuel (n / 10) ++ [digitChar (n % 10)]

/-- Decimal digits of a natural number, most significant first. -/
def natChars (n : Nat) : List Char := natCharsAux (n + 1) n

/-- Decimal rendering of an integer, as String(n) produces in JavaScript. -/
def intChars (n : Int) : List Char :=
  if n < 0 then '-' :: natChars n.natAbs else natChars n.toNat

/-- Escape of one character inside a JSON string literal, exactly as
JSON.stringify escapes it. -/
def escapeChar (c : Char) : List Char :=
  if c = jsQuote then [jsBackslash, jsQuote]
  else if c = jsBackslash then [jsBackslash, jsBackslash]
  else if c = Char.ofNat 8 then [jsBackslash, 'b']
  else if c = Char.ofNat 9 then [jsBackslash, 't']
  else if c = Char.ofNat 10 then [jsBackslash, 'n']
  else if c = Char.ofNat 12 then [jsBackslash, 'f']
  else if c = Char.ofNat 13 then [jsBackslash, 'r']
  else if c.toNat < 32 then
    [jsBackslash, 'u', '0', '0', hexDigitChar (c.toNat / 16), hexDigitChar (c.toNat % 16)]
  else [c]

/-- Escaped body of a JSON string literal. -/
def escapeString : List Char → List Char
  | [] => []
  | c :: r => escapeChar c ++ escapeString r

/-- A quoted JSON string literal. -/
def quoteString (s : List Char) : List Char :=
  jsQuote :: (escapeString s ++ [jsQuote])

/-- Indentation: n spaces. -/
def indentChars (n : Nat) : List Char := List.replicate n ' '

mutual
/-- Rendering of a JSON value by JSON.stringify(v, null, 2), at ambient
indentation ind. -/
def printV (ind : Nat) : Json → List Char
  | .null => "null".data
  | .bool true => "true".data
  | .bool false => "false".data
  | .num n => intChars n
  | .str s => quoteString s
  | .arr [] => "[]".data
  | .arr (x :: xs) =>
      '[' :: ('\n' :: (printArrItems (ind + 2) (x :: xs) ++
        ('\n' :: (indentChars ind ++ [']']))))
  | .obj [] => [lCurly, rCurly]
  | .obj (f :: fs) =>
      lCurly :: ('\n' :: (printObjItems (ind + 2) (f :: fs) ++
        ('\n' :: (indentChars ind ++ [rCurly]))))
/-- The comma-newline separated item list of a pretty-printed array; each
item is preceded by its indentation. -/
def printArrItems (ind : Nat) : List Json → List Char
  | [] => []
  | [x] => indentChars ind ++ printV ind x
  | x :: y :: ys =>
      indentChars ind ++ (printV ind x ++ (',' :: ('\n' :: printArrItems ind (y :: ys))))
/-- The comma-newline separated field list of a pretty-printed object. -/
def printObjItems (ind : Nat) : List (List Char × Json) → List Char
  | [] => []
  | [f] => indentChars ind ++ (quoteString f.1 ++ (':' :: (' ' :: printV ind f.2)))
  | f :: g :: gs =>
      indentChars ind ++ (quoteString f.1 ++ (':' :: (' ' :: (printV ind f.2 ++
        (',' :: ('\n' :: printObjItems ind (g :: gs)))))))
end

/-- Model of JSON.stringify(v, null, 2). -/
def jsonStringify2 (j : Json) : List Char := printV 0 j

mutual
/-- Rendering of a JSON value by plain JSON.stringify(v) (compact form). -/
def printC : Json → List Char
  | .null => "null".data
  | .bool true => "true".data
  | .bool false => "false".data
  | .num n => intChars n
  | .str s => quoteString s
  | .arr [] => "[]".data
  | .arr (x :: xs) => '[' :: (printCItems (x :: xs) ++ [']'])
  | .obj [] => [lCurly, rCurly]
  | .obj (f :: fs) => lCurly :: (printCFields (f :: fs) ++ [rCurly])
/-- Compact array items, comma separated. -/
def printCItems : List Json → List Char
  | [] => []
  | [x] => printC x
  | x :: y :: ys => printC x ++ (',' :: printCItems (y :: ys))
/-- Compact object fields, comma separated. -/
def printCFields : List (List Char × Json) → List Char
  | [] => []
  | [f] => quoteString f.1 ++ (':' :: printC f.2)
  | f :: g :: gs => quoteString f.1 ++ (':' :: (printC f.2 ++ (',' :: printCFields (g :: gs))))
end

/-- Model of plain JSON.stringify(v). -/
def jsonStringify0 (j : Json) : List Char := printC j

/-- JSON insignificant whitespace: space, tab, line feed, carriage return. -/
def isJsonWs (c : Char) : Bool :=
  c = ' ' || c = Char.ofNat 9 || c = Char.ofNat 10 || c = Char.ofNat 13

/-- Skip insignificant whitespace. -/
def skipWs : List Char → List Char
  | [] => []
  | c :: r => if isJsonWs c then skipWs r else c :: r

/-- Value of a hexadecimal digit character, either case. -/
def hexVal (c : Char) : Option Nat :=
  if 48 ≤ c.toNat ∧ c.toNat ≤ 57 then some (c.toNat - 48)
  else if 97 ≤ c.toNat ∧ c.toNat ≤ 102 then some (c.toNat - 87)
  else if 65 ≤ c.toNat ∧ c.toNat ≤ 70 then some (c.toNat - 55)
  else none

/-- Prefix a character onto the string being accumulated by the string-body
parser. -/
def consParsed (c : Char) (o : Option (List Char × List Char)) :
    Option (List Char × List Char) :=
  o.map fun p => (c :: p.1, p.2)

/-- Parser for the body of a JSON string literal, after the opening quote;
returns the decoded characters and the input after the closing quote.
Follows the JSON grammar: escapes, no raw control characters.  Fuel-indexed
so the definition is structural; one unit per consumed unit suffices. -/
def parseStringBody : Nat → List Char → Option (List Char × List Char)
  | 0, _ => none
  | _, [] => none
  | fuel + 1, c :: r =>
    if c = jsQuote then some ([], r)
    else if c = jsBackslash then
      match r with
      | [] => none
      | e :: r2 =>
        if e = jsQuote then consParsed jsQuote (parseStringBody fuel r2)
        else if e = jsBackslash then consParsed jsBackslash (parseStringBody fuel r2)
        else if e = '/' then consParsed '/' (parseStringBody fuel r2)
        else if e = 'b' then consParsed (Char.ofNat 8) (parseStringBody fuel r2)
        else if e = 'f' then consParsed (Char.ofNat 12) (parseStringBody fuel r2)
        else if e = 'n' then consParsed (Char.ofNat 10) (parseStringBody fuel r2)
        else if e = 'r' then consParsed (Char.ofNat 13) (parseStringBody fuel r2)
        else if e = 't' then consParsed (Char.ofNat 9) (parseStringBody fuel r2)
        else if e = 'u' then
          match r2 with
          | h1 :: h2 :: h3 :: h4 :: r3 =>
            match hexVal h1, hexVal h2, hexVal h3, hexVal h4 with
            | some a, some b, some c2, some d =>
              let n := ((a * 16 + b) * 16 + c2) * 16 + d
              if n.isValidChar then consParsed (Char.ofNat n) (parseStringBody fuel r3)
              else none
            | _, _, _, _ => none
          | _ => none
        else none
    else if c.toNat < 32 then none
    else consParsed c (parseStringBody fuel r)

/-- The string-body parse applied at a suffix, with the fuel the suffix
length affords (always sufficient: every step consumes a character). -/
def parseStringAfterQuote (input : List Char) : Option (List Char × List Char) :=
  parseStringBody (input.length + 1) input

/-- Longest digit prefix of the input, and the rest. -/
def takeDigits : List Char → List Char × List Char
  | [] => ([], [])
  | c :: r =>
    if c.isDigit then
      let p := takeDigits r
      (c :: p.1, p.2)
    else ([], c :: r)

/-- Numeric value of a digit string, most significant first. -/
def digitsToNat (ds : List Char) : Nat :=
  ds.foldl (fun a c => a * 10 + (c.toNat - 48)) 0

/-- Parser for the natural-number part of a JSON number.  A leading zero is
the whole integer part, as in the JSON grammar. -/
def parseNumberNat : List Char → Option (Nat × List Char)
  | [] => none
  | c :: r =>
    if c = '0' then some (0, r)
    else if c.isDigit then
      let p := takeDigits r
      some (digitsToNat (c :: p.1), p.2)
    else none

/-- Parser for a JSON number (integer fragment: optional minus, digits). -/
def parseNumber : List Char → Option (Json × List Char)
  | [] => none
  | c :: r =>
    if c = '-' then
      match parseNumberNat r with
      | some (n, rest) => some (Json.num (-(n : Int)), rest)
      | none => none
    else (parseNumberNat (c :: r)).map fun p => (Json.num (p.1 : Int), p.2)

/-- Insertion into the field list of a JSON object under construction:
assignment replaces the value of an existing key in place, otherwise
appends, exactly as property assignment behaves on a JavaScript object. -/
def objInsert : List (List Char × Json) → List Char → Json → List (List Char × Json)
  | [], k, v => [(k, v)]
  | (k2, v2) :: fs, k, v =>
      if k2 = k then (k, v) :: fs else (k2, v2) :: objInsert fs k v

mutual
/-- Fuel-indexed parser for one JSON value; consumes leading whitespace and
returns the value and the input immediately after it. -/
def parseValue : Nat → List Char → Option (Json × List Char)
  | 0, _ => none
  | fuel + 1, input =>
    match skipWs input with
    | [] => none
    | c :: r =>
      if c = 'n' then
        match r with
        | 'u' :: 'l' :: 'l' :: rest => some (Json.null, rest)
        | _ => none
      else if c = 't' then
        match r with
        | 'r' :: 'u' :: 'e' :: rest => some (Json.bool true, rest)
        | _ => none
      else if c = 'f' then
        match r with
        | 'a' :: 'l' :: 's' :: 'e' :: rest => some (Json.bool false, rest)
        | _ => none
      else if c = jsQuote then
        (parseStringAfterQuote r).map fun p => (Json.str p.1, p.2)
      else if c = '[' then parseElems fuel r
      else if c = lCurly then parseFields fuel r
      else if c = '-' || c.isDigit then parseNumber (c :: r)
      else none
/-- Parser for an array body, after the opening bracket. -/
def parseElems : Nat → List Char → Option (Json × List Char)
  | 0, _ => none
  | fuel + 1, input =>
    match skipWs input with
    | [] => none
    | c :: r =>
      if c = ']' then some (Json.arr [], r)
      else
        match parseValue fuel (c :: r) with
        | some (v, rest) => parseElemsTail fuel [v] rest
        | none => none
/-- Parser for the continuation of an array body: a comma and another
element, or the closing bracket. -/
def parseElemsTail : Nat → List Json → List Char → Option (Json × List Char)
  | 0, _, _ => none
  | fuel + 1, acc, input =>
    match skipWs input with
    | [] => none
    | c :: r =>
      if c = ']' then some (Json.arr acc, r)
      else if c = ',' then
        match parseValue fuel r with
        | some (v, rest) => parseElemsTail fuel (acc ++ [v]) rest
        | none => none
      else none
/-- Parser for an object body, after the opening brace. -/
def parseFields : Nat → List Char → Option (Json × List Char)
  | 0, _ => none
  | fuel + 1, input =>
    match skipWs input with
    | [] => none
    | c :: r =>
      if c = rCurly then some (Json.obj [], r)
      else if c = jsQuote then
        match parseStringAfterQuote r with
        | some (k, r2) =>
          match skipWs r2 with
          | ':' :: r3 =>
            match parseValue fuel r3 with
            | some (v, rest) => parseFieldsTail fuel (objInsert [] k v) rest
            | none => none
          | _ => none
        | none => none
      else none
/-- Parser for the continuation of an object body. -/
def parseFieldsTail : Nat → List (List Char × Json) → List Char → Option (Json × List Char)
  | 0, _, _ => none
  | fuel + 1, acc, input =>
    match skipWs input with
    | [] => none
    | c :: r =>
      if c = rCurly then some (Json.obj acc, r)
      else if c = ',' then
        match skipWs r with
        | c2 :: r2 =>
          if c2 = jsQuote then
            match parseStringAfterQuote r2 with
            | some (k, r3) =>
              match skipWs r3 with
              | ':' :: r4 =>
                match parseValue fuel r4 with
                | some (v, rest) => parseFieldsTail fuel (objInsert acc k v) rest
                | none => none
              | _ => none
            | none => none
          else none
        | [] => none
      else none
end

/-- Model of JSON.parse: parse one value, then require only whitespace to
remain; any failure is the thrown SyntaxError, modelled as none. -/
def jsonParse (s : List Char) : Option Json :=
  match parseValue (s.length + 1) s with
  | some (j, rest) => if skipWs rest = [] then some j else none
  | none => none

/-- JavaScript property lookup on an object field list (keys are unique on
objects produced by JSON.parse and by the extension). -/
def lookupField : List (List Char × Json) → List Char → Option Json
  | [], _ => none
  | (k, v) :: fs, key => if k = key then some v else lookupField fs key

/-- One conversation turn, the Message shape of ControllerFromRunner. -/
structure Message where
  role : List Char
  content : List Char

/-- vscode.NotebookCellKind. -/
inductive NotebookCellKind where
  | markup
  | code
deriving DecidableEq

/-- vscode.NotebookCellData as the serializer uses it.  The value and
languageId come from unvalidated property accesses in deserializeNotebook,
so they are arbitrary JSON values or undefined (none). -/
structure NotebookCellData where
  kind : NotebookCellKind
  value : Option Json
  languageId : Option Json

/-- vscode.NotebookData: cells plus the metadata object. -/
structure NotebookData where
  cells : List NotebookCellData
  metadata : Option Json

/-- Outcome of deserializeNotebook: the returned notebook or the thrown
TypeError, plus whether the catch block logged a parse failure through
console.error (lines 40-44).  The unconditional console.log of line 59 is
informational and is not failure logging. -/
structure DeserializeOutcome where
  result : Except Unit NotebookData
  loggedError : Bool

/-- defaultSerializedNotebook (MessageJSONSerializer.ts lines 9-26): the two
seed messages (field order as written in the source) and the empty
parameter map. -/
def defaultSerializedNotebook (contentToTranslate : Option (List Char)) :
    List Json × Json :=
  ([ Json.obj [("content".data,
       Json.str "You are a translator. You will translate the content provided and return it as valid markdown".data),
       ("role".data, Json.str "system".data)],
     Json.obj [("content".data,
       Json.str (contentToTranslate.getD "Insert translation content here".data)),
       ("role".data, Json.str "user".data)] ],
   Json.obj [])

/-- JavaScript property access used for cell.content and cell.role: access
on null throws a TypeError, access on another primitive yields undefined,
access on an object looks the key up. -/
def jsGetField : Json → List Char → Except Unit (Option Json)
  | Json.null, _ => .error ()
  | Json.obj fs, key => .ok (lookupField fs key)
  | _, _ => .ok none

/-- One iteration of the cell-building loop (lines 47-55): a
NotebookCellData built from the content and role properties of the message
element. -/
def cellOfMessage (j : Json) : Except Unit NotebookCellData := do
  let c ← jsGetField j "content".data
  let r ← jsGetField j "role".data
  .ok { kind := .code, value := c, languageId := r }

/-- The element sequence of a for..of loop over a JavaScript value: an array
yields its elements, a string yields its characters as one-character
strings, and any other value (undefined, null, number, boolean, plain
object) is not iterable and throws a TypeError. -/
def iterateJs : Option Json → Except Unit (List Json)
  | some (Json.arr xs) => .ok xs
  | some (Json.str s) => .ok (s.map fun c => Json.str [c])
  | _ => .error ()

/-- The cell-building loop of lines 46-55: one cell per message element, a
thrown TypeError aborting the whole loop. -/
def cellsOfMessages : List Json → Except Unit (List NotebookCellData)
  | [] => .ok []
  | j :: js => do
    let c ← cellOfMessage j
    let rest ← cellsOfMessages js
    .ok (c :: rest)

/-- The notebook built from the message list and the parameters value of the
serialized form (lines 46-58); params = none models an undefined
serialized.parameters, giving a metadata object with no parameters key. -/
def buildNotebook (msgs : List Json) (params : Option Json) :
    Except Unit NotebookData := do
  let cells ← cellsOfMessages msgs
  .ok { cells := cells,
        metadata := some (Json.obj (match params with
          | some p => [("parameters".data, p)]
          | none => [])) }

/-- deserializeNotebook (MessageJSONSerializer.ts lines 29-62).  The only
caught failure is the JSON.parse throw; iterating a non-iterable
serialized.messages afterwards throws to the caller. -/
def deserializeNotebook (content : List Char) : DeserializeOutcome :=
  match jsonParse content with
  | none =>
      { result := buildNotebook (defaultSerializedNotebook none).1
          (some (defaultSerializedNotebook none).2),
        loggedError := !content.isEmpty }
  | some data =>
      match data with
      | Json.arr xs =>
          { result := buildNotebook xs (some (Json.obj [])), loggedError := false }
      | Json.obj fs =>
          { result := do
              let src ← iterateJs (lookupField fs "messages".data)
              buildNotebook src (lookupField fs "parameters".data),
            loggedError := false }
      | _ => { result := .error (), loggedError := false }

/-- The wire object of one kept cell (lines 69-74); JSON.stringify omits a
field whose value is undefined. -/
def rawCellJson (c : NotebookCellData) : Json :=
  Json.obj ((match c.value with
     | some v => [("content".data, v)]
     | none => []) ++
    (match c.languageId with
     | some r => [("role".data, r)]
     | none => []))

/-- data.metadata?.parameters ?? two-brace-empty-object (line 78): undefined
or null at either step falls through to the empty object. -/
def metadataParameters (nd : NotebookData) : Json :=
  match nd.metadata with
  | some (Json.obj fs) =>
      match lookupField fs "parameters".data with
      | some p =>
          match p with
          | Json.null => Json.obj []
          | _ => p
      | none => Json.obj []
  | _ => Json.obj []

/-- The SerializedNotebook object built by serializeNotebook (lines 76-79),
field order as in the source. -/
def serializedJson (nd : NotebookData) : Json :=
  Json.obj [("messages".data,
      Json.arr ((nd.cells.filter fun c => decide (c.kind = NotebookCellKind.code)).map
        rawCellJson)),
    ("parameters".data, metadataParameters nd)]

/-- serializeNotebook (MessageJSONSerializer.ts lines 63-82): only code-kind
cells are kept, and the result is pretty-printed with 2-space indentation. -/
def serializeNotebook (nd : NotebookData) : List Char :=
  jsonStringify2 (serializedJson nd)

/-- tryJSON (extension.ts lines 216-222): JSON.parse with a thrown
SyntaxError turned into undefined. -/
def tryJSON (s : List Char) : Option Json := jsonParse s

/-- loosyGoosyJSON (extension.ts line 223): the strict parse first, and on a
nullish result (undefined from a parse failure, or the parsed JSON null)
the input wrapped in quotes is parsed instead. -/
def loosyGoosyJSON (v : List Char) : Option Json :=
  match tryJSON v with
  | some j =>
      match j with
      | Json.null => tryJSON (jsQuote :: (v ++ [jsQuote]))
      | _ => some j
  | none => tryJSON (jsQuote :: (v ++ [jsQuote]))

/-- The validateInput callback of the value prompt (lines 229-234): an
inline message exactly when the lenient parse fails. -/
def validateInput (v : List Char) : Option (List Char) :=
  match loosyGoosyJSON v with
  | none => some "Format nontrivial input as JSON".data
  | some _ => none

/-- The selection made in the Configure LLM Parameters picker: the New
Parameter entry or an existing key with its current value. -/
inductive RecursePick where
  | newParam
  | existingParam (key : List Char) (value : Json)

/-- Key resolution (lines 202-214): picking New Parameter prompts for a
name, and a falsy result (dismissed prompt, or the empty string) aborts;
picking an existing entry uses its label. -/
def resolveKey (pick : RecursePick) (keyInput : Option (List Char)) :
    Option (List Char) :=
  match pick with
  | .newParam =>
      match keyInput with
      | none => none
      | some k => if k = [] then none else some k
  | .existingParam k _ => some k

/-- JavaScript delete of one property from the copied parameter object. -/
def deleteKey : List (List Char × Json) → List Char → List (List Char × Json)
  | [], _ => []
  | (k, v) :: fs, key => if k = key then fs else (k, v) :: deleteKey fs key

/-- Outcome of one iteration of the parameter editor: the parameter mapping
in effect afterwards, and whether the function re-invoked itself. -/
structure RecurseOutcome where
  parameters : List (List Char × Json)
  recursed : Bool

/-- The outcome of a committed parameter edit for a successfully parsed
value: the empty-string sentinel deletes the key, anything else stores the
value (extension.ts lines 243-249). -/
def commitOutcome (params : List (List Char × Json)) (key : List Char) :
    Json → RecurseOutcome
  | Json.str [] => ⟨deleteKey params key, true⟩
  | j => ⟨objInsert params key j, true⟩

/-- One iteration of the configureParameters recursion (extension.ts lines
159-258), with picker and prompt results passed as arguments: a dismissed
picker, a missing key, a dismissed value prompt or an unparseable committed
value each return without mutating and without re-invoking; a committed
empty string deletes the key; any other committed value is stored; after
the metadata edit the function re-invokes itself (line 257). -/
def recurseStep (params : List (List Char × Json)) (pick : Option RecursePick)
    (keyInput : Option (List Char)) (valueInput : Option (List Char)) :
    RecurseOutcome :=
  match pick with
  | none => ⟨params, false⟩
  | some sel =>
    match resolveKey sel keyInput with
    | none => ⟨params, false⟩
    | some key =>
      match valueInput with
      | none => ⟨params, false⟩
      | some newValue =>
        match loosyGoosyJSON newValue with
        | none => ⟨params, false⟩
        | some parsed => commitOutcome params key parsed

/-- Timestamp cleanup (extension.ts line 37), fuel-indexed so the
definition is structural: the global regex removes every colon and dash,
and every dot followed by exactly three digits, scanning left to right. -/
def stripTsAux : Nat → List Char → List Char
  | 0, _ => []
  | _, [] => []
  | fuel + 1, c :: r =>
    if c = ':' ∨ c = '-' then stripTsAux fuel r
    else if c = '.' then
      match r with
      | d1 :: d2 :: d3 :: r2 =>
        if d1.isDigit && d2.isDigit && d3.isDigit then stripTsAux fuel r2
        else c :: stripTsAux fuel r
      | _ => c :: stripTsAux fuel r
    else c :: stripTsAux fuel r

/-- Timestamp cleanup (extension.ts line 37): one fuel unit per scan
position always suffices. -/
def stripTs (s : List Char) : List Char := stripTsAux s.length s

/-- The artifact name (extension.ts line 38). -/
def llmFileName (documentId : List Char) (isoNow : List Char) : List Char :=
  documentId ++ ('-' :: stripTs isoNow) ++ ".llm".data

/-- The templated system seed instruction (extension.ts lines 85-88),
transcribed verbatim.  By this point translationLanguage always holds a
string, so the nullish fallback inside the template is inert and the
language is spliced directly. -/
def sysInstruction (lang : List Char) : List Char :=
  "You are a translator. \nYou will translate the content provided into ".data ++
  (lang ++
  (" and return it as valid markdown. \nFirst explain potential difficulties one might encounter in translating the specific document given into the the translation language due to cultural and/or linguistic mismatches, then return the translation with the explanation of the specific difficulties, and then complete the translation. Explain the difficulties in the source language (e.g., English), and translate only in ".data ++
  lang))

/-- A cell of the open notebook editor as the driver sees it. -/
structure SimCell where
  languageId : List Char
  value : List Char

/-- Observable host actions of the translate-document command, in the order
they are awaited.  Every step of the source is awaited before the next one
starts, so a run is a single sequential event list. -/
inductive DriverEvent where
  | showErrorMessage (msg : List Char)
  | writeFile (name : List Char) (contents : List Char)
  | showInformationMessage (msg : List Char)
  | insertCodeCellBelow
  | changeLanguage (idx : Nat) (lang : List Char)
  | appendContent (idx : Nat) (content : List Char)
  | executeCell (idx : Nat)

/-- Modelled from the spec: appendContentToCell (ControllerFromRunner.ts, a
repository file not under src/) appends the given content to the text of
the target cell (spec 4.3: append its text). -/
def simAppendContent (cells : List SimCell) (idx : Nat) (content : List Char) :
    List SimCell :=
  match cells[idx]? with
  | some c => cells.set idx { c with value := c.value ++ content }
  | none => cells

/-- The language change applied by the notebook.cell.changeLanguage command
on a one-cell range. -/
def simSetLanguage (cells : List SimCell) (idx : Nat) (lang : List Char) :
    List SimCell :=
  match cells[idx]? with
  | some c => cells.set idx { c with languageId := lang }
  | none => cells

/-- Modelled from the spec: the effect of notebook.execute on the last
(user) cell.  ControllerFromRunner.ts and OpenAiRunner.ts are repository
files not under src/; per spec sections 2, 4.3 and 6 the Runner produces
the assistant turn for the next cell, and a fresh empty user-role turn is
left as the new last cell so that the next content chunk lands in a
user-role turn. -/
def simExecuteEffect (cells : List SimCell) (runnerOutput : List Char) :
    List SimCell :=
  cells ++ [{ languageId := "assistant".data, value := runnerOutput },
            { languageId := "user".data, value := [] }]

/-- The per-chunk loop (extension.ts lines 103-118): a falsy chunk is
skipped; otherwise the chunk is appended to the current last cell and that
cell is executed, and only after that execution completes does the loop
move to the next chunk. -/
def runChunks (runnerOutput : List Char) :
    List (List Char) → List SimCell → List DriverEvent →
    List SimCell × List DriverEvent
  | [], cells, evts => (cells, evts)
  | chunk :: rest, cells, evts =>
    if chunk = [] then runChunks runnerOutput rest cells evts
    else
      let last := cells.length - 1
      let cells2 := simAppendContent cells last chunk
      let cells3 := simExecuteEffect cells2 runnerOutput
      runChunks runnerOutput rest cells3
        (evts ++ [.appendContent last chunk, .executeCell last])

/-- The language resolution (extension.ts lines 27-36): a falsy preselected
language prompts; a dismissed prompt or an empty entry falls back to the
default via the or-else. -/
def resolveLanguage (preSelected : Option (List Char))
    (languageInput : Option (List Char)) : List Char :=
  match preSelected with
  | some l =>
      if l = [] then
        match languageInput with
        | none => "English".data
        | some s => if s = [] then "English".data else s
      else l
  | none =>
      match languageInput with
      | none => "English".data
      | some s => if s = [] then "English".data else s

/-- The cells of the freshly opened notebook document, as the editor shows
them: string values pass through, anything else renders as empty text. -/
def simCellsOfNotebook (nd : NotebookData) : List SimCell :=
  nd.cells.map fun c =>
    { languageId := match c.languageId with
        | some (Json.str s) => s
        | _ => []
      value := match c.value with
        | some (Json.str s) => s
        | _ => [] }

/-- Result of one run of the translate-document command: its event trace and
the final cells of the open notebook. -/
structure DriverRun where
  events : List DriverEvent
  cells : List SimCell

/-- The ai-translate.translateDocument command (extension.ts lines 16-119),
with the host-supplied inputs passed as arguments: the preselected
language, the language prompt reply (none models a dismissed prompt), the
resolved workspace folder path (none models a missing workspace), the
current ISO timestamp, and the Runner output appended per execution.  The
lines are modelled in source order; every awaited step is one trace
element. -/
def translateDocument (documentId : Option (List Char))
    (documentContent : Option (List (List Char)))
    (preSelectedTranslationLanguage : Option (List Char))
    (languageInput : Option (List Char))
    (workspaceFolder : Option (List Char))
    (isoNow : List Char) (runnerOutput : List Char) : DriverRun :=
  match documentId with
  | none => ⟨[.showErrorMessage "Document ID is required.".data], []⟩
  | some docId =>
    if docId = [] then ⟨[.showErrorMessage "Document ID is required.".data], []⟩
    else
      let translationLanguage :=
        resolveLanguage preSelectedTranslationLanguage languageInput
      let fileName := llmFileName docId isoNow
      match workspaceFolder with
      | none => ⟨[.showErrorMessage "No workspace folder found.".data], []⟩
      | some _ =>
        let seedBytes := jsonStringify0
          (Json.obj [("messages".data, Json.arr []), ("parameters".data, Json.obj [])])
        let notebookBuffer :=
          match (deserializeNotebook seedBytes).result with
          | .ok nd => serializeNotebook nd
          | .error _ => []
        let cells0 :=
          match (deserializeNotebook notebookBuffer).result with
          | .ok nd => simCellsOfNotebook nd
          | .error _ => []
        let cells1 := cells0 ++ [{ languageId := [], value := [] }]
        let cells2 := simSetLanguage cells1 0 "system".data
        let cells3 := simAppendContent cells2 0 (sysInstruction translationLanguage)
        let cells4 := cells3 ++ [{ languageId := [], value := [] }]
        let cells5 := simSetLanguage cells4 1 "user".data
        let setupEvents : List DriverEvent :=
          [.writeFile fileName notebookBuffer,
           .showInformationMessage ("New .llm file created: ".data ++ fileName),
           .insertCodeCellBelow,
           .changeLanguage 0 "system".data,
           .appendContent 0 (sysInstruction translationLanguage),
           .insertCodeCellBelow,
           .changeLanguage 1 "user".data]
        match documentContent with
        | none => ⟨setupEvents, cells5⟩
        | some chunks =>
          let r := runChunks runnerOutput chunks cells5 []
          ⟨setupEvents ++ r.2, r.1⟩

/-- Key list of an object field list. -/
def keysOf (fs : List (List Char × Json)) : List (List Char) := fs.map Prod.fst

/-- No duplicate keys. -/
def keysNodup : List (List Char) → Bool
  | [] => true
  | k :: ks => !(ks.contains k) && keysNodup ks

mutual
/-- Well-formed JSON value: every object in it has pairwise distinct keys.
This is exactly the shape of data reachable from JavaScript objects, whose
keys are unique. -/
def Json.wf : Json → Bool
  | .null => true
  | .bool _ => true
  | .num _ => true
  | .str _ => true
  | .arr xs => Json.wfList xs
  | .obj fs => keysNodup (keysOf fs) && Json.wfFields fs
/-- Well-formedness of every element. -/
def Json.wfList : List Json → Bool
  | [] => true
  | x :: xs => Json.wf x && Json.wfList xs
/-- Well-formedness of every field value. -/
def Json.wfFields : List (List Char × Json) → Bool
  | [] => true
  | f :: fs => Json.wf f.2 && Json.wfFields fs
end

/-- The input does not begin with a decimal digit, so a number directly
before it parses unambiguously. -/
def noDigitStart : List Char → Prop
  | [] => True
  | c :: _ => c.isDigit = false

mutual
/-- Fuel sufficient for parseValue on the printed form of a value. -/
def needV : Json → Nat
  | .null => 1
  | .bool _ => 1
  | .num _ => 1
  | .str _ => 1
  | .arr xs => 1 + needElems xs
  | .obj fs => 1 + needFields fs
/-- Fuel sufficient for parseElems on a printed array body. -/
def needElems : List Json → Nat
  | [] => 1
  | x :: xs => 1 + Nat.max (needV x) (needElemsTail xs)
/-- Fuel sufficient for parseElemsTail on the remaining printed items. -/
def needElemsTail : List Json → Nat
  | [] => 1
  | x :: xs => 1 + Nat.max (needV x) (needElemsTail xs)
/-- Fuel sufficient for parseFields on a printed object body. -/
def needFields : List (List Char × Json) → Nat
  | [] => 1
  | f :: fs => 1 + Nat.max (needV f.2) (needFieldsTail fs)
/-- Fuel sufficient for parseFieldsTail on the remaining printed fields. -/
def needFieldsTail : List (List Char × Json) → Nat
  | [] => 1
  | f :: fs => 1 + Nat.max (needV f.2) (needFieldsTail fs)
end

/-- The wire object of one message, {role, content}, as the legacy storage
format carries it. -/
def messageJson (m : Message) : Json :=
  Json.obj [("role".data, Json.str m.role), ("content".data, Json.str m.content)]

/-- The notebook cell corresponding to one message: a code-kind cell whose
text is the content and whose language tag is the role. -/
def messageCell (m : Message) : NotebookCellData :=
  { kind := .code, value := some (Json.str m.content), languageId := some (Json.str m.role) }

/-- The in-memory notebook form of a conversation document: one code cell
per message, and the parameter mapping in the metadata slot. -/
def notebookOfDoc (msgs : List Message) (params : List (List Char × Json)) :
    NotebookData :=
  { cells := msgs.map messageCell,
    metadata := some (Json.obj [("parameters".data, Json.obj params)]) }

/-- The byte payloads of the writeFile events of a driver trace. -/
def writeFilePayloads (evts : List DriverEvent) : List (List Char) :=
  evts.filterMap fun e =>
    match e with
    | .writeFile _ contents => some contents
    | _ => none

/-- The texts of nonempty user-role cells: the user turns that carry
content. -/
def nonEmptyUserTurns (cells : List SimCell) : List (List Char) :=
  (cells.filter fun c => c.languageId == "user".data && !c.value.isEmpty).map
    fun c => c.value

/-- Two decimal digits, zero padded. -/
def pad2 (n : Nat) : List Char := [digitChar (n / 10 % 10), digitChar (n % 10)]

/-- Three decimal digits, zero padded. -/
def pad3 (n : Nat) : List Char :=
  [digitChar (n / 100 % 10), digitChar (n / 10 % 10), digitChar (n % 10)]

/-- Four decimal digits, zero padded. -/
def pad4 (n : Nat) : List Char :=
  [digitChar (n / 1000 % 10), digitChar (n / 100 % 10), digitChar (n / 10 % 10),
   digitChar (n % 10)]

/-- The ISO-8601 instant rendered by Date.prototype.toISOString for a year
below 10000: YYYY-MM-DDTHH:mm:ss.sssZ. -/
def isoTimestamp (y mo d h mi s ms : Nat) : List Char :=
  pad4 y ++ ('-' :: (pad2 mo ++ ('-' :: (pad2 d ++ ('T' :: (pad2 h ++ (':' :: (pad2 mi ++
    (':' :: (pad2 s ++ ('.' :: (pad3 ms ++ ['Z']))))))))))))

/-- The timestamp after the separator strip: date digits, T, time digits, Z. -/
def strippedTimestamp (y mo d h mi s : Nat) : List Char :=
  pad4 y ++ (pad2 mo ++ (pad2 d ++ ('T' :: (pad2 h ++ (pad2 mi ++ (pad2 s ++ ['Z']))))))

/-- The chronological key of an instant at second resolution, with each
component below its radix strictly ordered. -/
def chronKey (y mo d h mi s : Nat) : Nat :=
  ((((y * 100 + mo) * 100 + d) * 100 + h) * 100 + mi) * 100 + s

/-- Strict lexicographic order on character lists, via the character order. -/
def charListLt (a b : List Char) : Prop := List.Lex (fun c1 c2 : Char => c1 < c2) a b

/-- The printed continuation after one array item: nothing when it was the
last item, else a comma, a newline and the remaining items. -/
def arrItemsSep (ind : Nat) : List Json → List Char
  | [] => []
  | y :: ys => ',' :: ('\n' :: printArrItems ind (y :: ys))

/-- The printed continuation after one object field. -/
def objItemsSep (ind : Nat) : List (List Char × Json) → List Char
  | [] => []
  | g :: gs => ',' :: ('\n' :: printObjItems ind (g :: gs))


theorem char_ne_of_toNat_ne {c d : Char} (h : c.toNat ≠ d.toNat) : c ≠ d :=
  fun he => h (he ▸ rfl)

theorem isDigit_iff_toNat {c : Char} :
    c.isDigit = true ↔ 48 ≤ c.toNat ∧ c.toNat ≤ 57 := by
  simp only [Char.isDigit, Bool.and_eq_true, decide_eq_true_eq]
  exact Iff.rfl

theorem digitChar_toNat {d : Nat} (h : d < 10) : (digitChar d).toNat = 48 + d := by
  interval_cases d <;> decide

theorem digitChar_isDigit {d : Nat} (h : d < 10) : (digitChar d).isDigit = true := by
  interval_cases d <;> decide

theorem hexVal_hexDigitChar {d : Nat} (h : d < 16) :
    hexVal (hexDigitChar d) = some d := by
  interval_cases d <;> decide

theorem natCharsAux_succ (fuel n : Nat) :
    natCharsAux (fuel + 1) n =
      if n < 10 then [digitChar n] else natCharsAux fuel (n / 10) ++ [digitChar (n % 10)] :=
  rfl

theorem natCharsAux_irrel :
    ∀ f g n, n ≤ f → n ≤ g → natCharsAux (f + 1) n = natCharsAux (g + 1) n := by
  intro f
  induction f with
  | zero =>
    intro g n hf _
    interval_cases n
    rw [natCharsAux_succ 0 0, natCharsAux_succ g 0]
    rfl
  | succ f ih =>
    intro g n hf hg
    by_cases h10 : n < 10
    · rw [natCharsAux_succ (f + 1) n, natCharsAux_succ g n, if_pos h10, if_pos h10]
    · obtain ⟨g2, rfl⟩ : ∃ g2, g = g2 + 1 := ⟨g - 1, by omega⟩
      rw [natCharsAux_succ (f + 1) n, natCharsAux_succ (g2 + 1) n, if_neg h10, if_neg h10]
      rw [show f + 1 = f + 1 from rfl]
      have h1 : n / 10 ≤ f := by omega
      have h2 : n / 10 ≤ g2 := by omega
      rw [ih g2 (n / 10) h1 h2]

theorem natChars_eq (n : Nat) :
    natChars n =
      if n < 10 then [digitChar n] else natChars (n / 10) ++ [digitChar (n % 10)] := by
  by_cases h : n < 10
  · simp [natChars, natCharsAux, h]
  · rw [if_neg h]
    show natCharsAux (n + 1) n = _
    rw [natCharsAux, if_neg h]
    have h1 : 10 ≤ n := Nat.le_of_not_lt h
    match n, h1 with
    | m + 1, h1 =>
      have : (m + 1) / 10 ≤ m := by omega
      rw [natCharsAux_irrel m ((m + 1) / 10) ((m + 1) / 10) this (Nat.le_refl _)]
      rfl

theorem natChars_digits (n : Nat) : ∀ c ∈ natChars n, c.isDigit = true := by
  induction n using Nat.strong_induction_on with
  | _ n ih =>
    rw [natChars_eq]
    by_cases h : n < 10
    · simp only [if_pos h, List.mem_singleton]
      rintro c rfl
      exact digitChar_isDigit h
    · simp only [if_neg h, List.mem_append, List.mem_singleton]
      rintro c (hc | rfl)
      · exact ih (n / 10) (by omega) c hc
      · exact digitChar_isDigit (Nat.mod_lt _ (by omega))

theorem natChars_head (n : Nat) (hn : n ≠ 0) :
    ∃ d t, natChars n = digitChar d :: t ∧ 0 < d ∧ d < 10 := by
  induction n using Nat.strong_induction_on with
  | _ n ih =>
    rw [natChars_eq]
    by_cases h : n < 10
    · exact ⟨n, [], by simp [h], by omega, h⟩
    · obtain ⟨d, t, ht, hd0, hd10⟩ := ih (n / 10) (by omega) (by omega)
      exact ⟨d, t ++ [digitChar (n % 10)], by simp [h, ht], hd0, hd10⟩

theorem digitsToNat_append (ds : List Char) (d : Char) :
    digitsToNat (ds ++ [d]) = digitsToNat ds * 10 + (d.toNat - 48) := by
  simp [digitsToNat, List.foldl_append]

theorem digitsToNat_natChars (n : Nat) : digitsToNat (natChars n) = n := by
  induction n using Nat.strong_induction_on with
  | _ n ih =>
    rw [natChars_eq]
    by_cases h : n < 10
    · simp only [if_pos h]
      show digitsToNat [digitChar n] = n
      simp [digitsToNat, digitChar_toNat h]
    · simp only [if_neg h]
      rw [digitsToNat_append, ih (n / 10) (by omega),
        digitChar_toNat (Nat.mod_lt _ (by omega))]
      omega

theorem digitChar_ne_zero_char {d : Nat} (h0 : 0 < d) (h10 : d < 10) :
    digitChar d ≠ '0' := by
  apply char_ne_of_toNat_ne
  rw [digitChar_toNat h10]
  show 48 + d ≠ 48
  omega

theorem takeDigits_append (ds rest : List Char)
    (hds : ∀ c ∈ ds, c.isDigit = true) (hrest : noDigitStart rest) :
    takeDigits (ds ++ rest) = (ds, rest) := by
  induction ds with
  | nil =>
    simp only [List.nil_append]
    match rest, hrest with
    | [], _ => rfl
    | c :: r, h =>
      simp only [noDigitStart] at h
      simp [takeDigits, h]
  | cons c ds ih =>
    have hc : c.isDigit = true := hds c (by simp)
    simp [takeDigits, hc, ih (fun x hx => hds x (by simp [hx]))]

theorem parseNumberNat_natChars (n : Nat) (rest : List Char)
    (hrest : noDigitStart rest) :
    parseNumberNat (natChars n ++ rest) = some (n, rest) := by
  by_cases h0 : n = 0
  · subst h0
    have h : natChars 0 = ['0'] := by decide
    rw [h]
    rfl
  · obtain ⟨d, t, ht, hd0, hd10⟩ := natChars_head n h0
    have hdigits := natChars_digits n
    have htd : ∀ c ∈ t, c.isDigit = true := by
      intro c hc
      exact hdigits c (by rw [ht]; exact List.mem_cons_of_mem _ hc)
    have hne : digitChar d ≠ '0' := digitChar_ne_zero_char hd0 hd10
    have hdig : (digitChar d).isDigit = true := digitChar_isDigit hd10
    rw [ht, List.cons_append, parseNumberNat, if_neg hne, if_pos hdig]
    simp only [takeDigits_append t rest htd hrest]
    rw [← digitsToNat_natChars n, ht]

theorem natChars_head_any (n : Nat) :
    ∃ d t, natChars n = digitChar d :: t ∧ d < 10 := by
  by_cases h0 : n = 0
  · subst h0
    exact ⟨0, [], by decide, by omega⟩
  · obtain ⟨d, t, ht, _, hd10⟩ := natChars_head n h0
    exact ⟨d, t, ht, hd10⟩

theorem digitChar_ne_minus {d : Nat} (h10 : d < 10) : digitChar d ≠ '-' := by
  apply char_ne_of_toNat_ne
  rw [digitChar_toNat h10]
  show 48 + d ≠ 45
  omega

theorem parseNumber_intChars (n : Int) (rest : List Char)
    (hrest : noDigitStart rest) :
    parseNumber (intChars n ++ rest) = some (Json.num n, rest) := by
  by_cases hneg : n < 0
  · rw [intChars, if_pos hneg, List.cons_append]
    show parseNumber ('-' :: (natChars n.natAbs ++ rest)) = _
    rw [parseNumber, if_pos rfl, parseNumberNat_natChars n.natAbs rest hrest]
    have h : -(n.natAbs : Int) = n := by omega
    simp only [h]
  · rw [intChars, if_neg hneg]
    obtain ⟨d, t, ht, hd10⟩ := natChars_head_any n.toNat
    rw [ht, List.cons_append, parseNumber, if_neg (digitChar_ne_minus hd10),
      ← List.cons_append, ← ht, parseNumberNat_natChars n.toNat rest hrest]
    have : (n.toNat : Int) = n := by omega
    simp [this]

theorem skipWs_not_ws {c : Char} (h : isJsonWs c = false) (r : List Char) :
    skipWs (c :: r) = c :: r := by
  simp [skipWs, h]

theorem skipWs_ws_front {p : List Char} (hp : ∀ c ∈ p, isJsonWs c = true)
    (q : List Char) : skipWs (p ++ q) = skipWs q := by
  induction p with
  | nil => rfl
  | cons c r ih =>
    simp only [List.cons_append, skipWs, hp c (by simp), if_pos]
    exact ih fun x hx => hp x (by simp [hx])

theorem indentChars_ws (n : Nat) : ∀ c ∈ indentChars n, isJsonWs c = true := by
  intro c hc
  rw [indentChars, List.mem_replicate] at hc
  rw [hc.2]
  decide

theorem psb_quote (fuel : Nat) (r : List Char) :
    parseStringBody (fuel + 1) (jsQuote :: r) = some ([], r) := rfl

theorem psb_esc_quote (fuel : Nat) (r : List Char) :
    parseStringBody (fuel + 1) (jsBackslash :: (jsQuote :: r)) =
      consParsed jsQuote (parseStringBody fuel r) := rfl

theorem psb_esc_bs (fuel : Nat) (r : List Char) :
    parseStringBody (fuel + 1) (jsBackslash :: (jsBackslash :: r)) =
      consParsed jsBackslash (parseStringBody fuel r) := rfl

theorem psb_esc_b (fuel : Nat) (r : List Char) :
    parseStringBody (fuel + 1) (jsBackslash :: ('b' :: r)) =
      consParsed (Char.ofNat 8) (parseStringBody fuel r) := rfl

theorem psb_esc_t (fuel : Nat) (r : List Char) :
    parseStringBody (fuel + 1) (jsBackslash :: ('t' :: r)) =
      consParsed (Char.ofNat 9) (parseStringBody fuel r) := rfl

theorem psb_esc_n (fuel : Nat) (r : List Char) :
    parseStringBody (fuel + 1) (jsBackslash :: ('n' :: r)) =
      consParsed (Char.ofNat 10) (parseStringBody fuel r) := rfl

theorem psb_esc_f (fuel : Nat) (r : List Char) :
    parseStringBody (fuel + 1) (jsBackslash :: ('f' :: r)) =
      consParsed (Char.ofNat 12) (parseStringBody fuel r) := rfl

theorem psb_esc_r (fuel : Nat) (r : List Char) :
    parseStringBody (fuel + 1) (jsBackslash :: ('r' :: r)) =
      consParsed (Char.ofNat 13) (parseStringBody fuel r) := rfl

theorem psb_esc_u (fuel : Nat) (h1 h2 h3 h4 : Char) (r3 : List Char) :
    parseStringBody (fuel + 1) (jsBackslash :: ('u' :: (h1 :: (h2 :: (h3 :: (h4 :: r3)))))) =
      (match hexVal h1, hexVal h2, hexVal h3, hexVal h4 with
        | some a, some b, some c2, some d =>
          if (((a * 16 + b) * 16 + c2) * 16 + d).isValidChar then
            consParsed (Char.ofNat (((a * 16 + b) * 16 + c2) * 16 + d))
              (parseStringBody fuel r3)
          else none
        | _, _, _, _ => none) := rfl

theorem psb_plain (fuel : Nat) {c : Char} (r : List Char) (h1 : c ≠ jsQuote)
    (h2 : c ≠ jsBackslash) (h3 : ¬c.toNat < 32) :
    parseStringBody (fuel + 1) (c :: r) = consParsed c (parseStringBody fuel r) := by
  show (if c = jsQuote then some ([], r)
    else if c = jsBackslash then _
    else if c.toNat < 32 then none
    else consParsed c (parseStringBody fuel r)) = _
  rw [if_neg h1, if_neg h2, if_neg h3]

theorem parseStringBody_escape (s : List Char) : ∀ fuel rest,
    s.length + 1 ≤ fuel →
    parseStringBody fuel (escapeString s ++ (jsQuote :: rest)) = some (s, rest) := by
  induction s with
  | nil =>
    intro fuel rest hfuel
    obtain ⟨f, rfl⟩ : ∃ f, fuel = f + 1 := ⟨fuel - 1, by omega⟩
    exact psb_quote f rest
  | cons c s ih =>
    intro fuel rest hfuel
    obtain ⟨f, rfl⟩ : ∃ f, fuel = f + 1 := ⟨fuel - 1, by omega⟩
    have hf : s.length + 1 ≤ f := by
      simp only [List.length_cons] at hfuel
      omega
    show parseStringBody (f + 1) ((escapeChar c ++ escapeString s) ++ (jsQuote :: rest)) =
      some (c :: s, rest)
    rw [List.append_assoc]
    by_cases h1 : c = jsQuote
    · subst h1
      rw [escapeChar, if_pos rfl]
      show parseStringBody (f + 1)
        (jsBackslash :: (jsQuote :: (escapeString s ++ (jsQuote :: rest)))) = _
      rw [psb_esc_quote, ih f rest hf]
      rfl
    · by_cases h2 : c = jsBackslash
      · subst h2
        rw [escapeChar, if_neg (show jsBackslash ≠ jsQuote by decide), if_pos rfl]
        show parseStringBody (f + 1)
          (jsBackslash :: (jsBackslash :: (escapeString s ++ (jsQuote :: rest)))) = _
        rw [psb_esc_bs, ih f rest hf]
        rfl
      · by_cases h3 : c = Char.ofNat 8
        · subst h3
          rw [escapeChar, if_neg h1, if_neg h2, if_pos rfl]
          show parseStringBody (f + 1)
            (jsBackslash :: ('b' :: (escapeString s ++ (jsQuote :: rest)))) = _
          rw [psb_esc_b, ih f rest hf]
          rfl
        · by_cases h4 : c = Char.ofNat 9
          · subst h4
            rw [escapeChar, if_neg h1, if_neg h2, if_neg h3, if_pos rfl]
            show parseStringBody (f + 1)
              (jsBackslash :: ('t' :: (escapeString s ++ (jsQuote :: rest)))) = _
            rw [psb_esc_t, ih f rest hf]
            rfl
          · by_cases h5 : c = Char.ofNat 10
            · subst h5
              rw [escapeChar, if_neg h1, if_neg h2, if_neg h3, if_neg h4, if_pos rfl]
              show parseStringBody (f + 1)
                (jsBackslash :: ('n' :: (escapeString s ++ (jsQuote :: rest)))) = _
              rw [psb_esc_n, ih f rest hf]
              rfl
            · by_cases h6 : c = Char.ofNat 12
              · subst h6
                rw [escapeChar, if_neg h1, if_neg h2, if_neg h3, if_neg h4, if_neg h5,
                  if_pos rfl]
                show parseStringBody (f + 1)
                  (jsBackslash :: ('f' :: (escapeString s ++ (jsQuote :: rest)))) = _
                rw [psb_esc_f, ih f rest hf]
                rfl
              · by_cases h7 : c = Char.ofNat 13
                · subst h7
                  rw [escapeChar, if_neg h1, if_neg h2, if_neg h3, if_neg h4, if_neg h5,
                    if_neg h6, if_pos rfl]
                  show parseStringBody (f + 1)
                    (jsBackslash :: ('r' :: (escapeString s ++ (jsQuote :: rest)))) = _
                  rw [psb_esc_r, ih f rest hf]
                  rfl
                · by_cases h8 : c.toNat < 32
                  · rw [escapeChar, if_neg h1, if_neg h2, if_neg h3, if_neg h4, if_neg h5,
                      if_neg h6, if_neg h7, if_pos h8]
                    show parseStringBody (f + 1)
                      (jsBackslash :: ('u' :: ('0' :: ('0' :: (hexDigitChar (c.toNat / 16) ::
                        (hexDigitChar (c.toNat % 16) ::
                          (escapeString s ++ (jsQuote :: rest)))))))) = _
                    rw [psb_esc_u]
                    have hhi : c.toNat / 16 < 16 := by omega
                    have hlo : c.toNat % 16 < 16 := by omega
                    rw [show hexVal '0' = some 0 from rfl, hexVal_hexDigitChar hhi,
                      hexVal_hexDigitChar hlo]
                    show (if (((0 * 16 + 0) * 16 + c.toNat / 16) * 16 + c.toNat % 16).isValidChar
                      then consParsed
                        (Char.ofNat (((0 * 16 + 0) * 16 + c.toNat / 16) * 16 + c.toNat % 16))
                        (parseStringBody f (escapeString s ++ (jsQuote :: rest)))
                      else none) = _
                    have hn : ((0 * 16 + 0) * 16 + c.toNat / 16) * 16 + c.toNat % 16 =
                        c.toNat := by omega
                    rw [hn, if_pos (Or.inl (by omega : c.toNat < 55296)), Char.ofNat_toNat,
                      ih f rest hf]
                    rfl
                  · rw [escapeChar, if_neg h1, if_neg h2, if_neg h3, if_neg h4, if_neg h5,
                      if_neg h6, if_neg h7, if_neg h8]
                    show parseStringBody (f + 1)
                      (c :: (escapeString s ++ (jsQuote :: rest))) = _
                    rw [psb_plain f _ h1 h2 h8, ih f rest hf]
                    rfl

theorem escapeChar_length (c : Char) : 1 ≤ (escapeChar c).length := by
  rw [escapeChar]
  repeat' split
  all_goals simp

theorem escapeString_length (s : List Char) :
    s.length ≤ (escapeString s).length := by
  induction s with
  | nil => simp [escapeString]
  | cons c r ih =>
    rw [escapeString, List.length_append, List.length_cons]
    have := escapeChar_length c
    omega

theorem parseStringAfterQuote_escape (k T2 : List Char) :
    parseStringAfterQuote (escapeString k ++ (jsQuote :: T2)) = some (k, T2) := by
  apply parseStringBody_escape
  rw [List.length_append, List.length_cons]
  have := escapeString_length k
  omega

theorem parseValue_quote (fuel : Nat) (T : List Char) :
    parseValue (fuel + 1) (jsQuote :: T) =
      (parseStringAfterQuote T).map (fun p => (Json.str p.1, p.2)) := rfl

theorem parseValue_lbracket (fuel : Nat) (T : List Char) :
    parseValue (fuel + 1) ('[' :: T) = parseElems fuel T := rfl

theorem parseValue_lcurly (fuel : Nat) (T : List Char) :
    parseValue (fuel + 1) (lCurly :: T) = parseFields fuel T := rfl

theorem parseElems_close (fuel : Nat) (r : List Char) :
    parseElems (fuel + 1) (']' :: r) = some (Json.arr [], r) := rfl

theorem parseFields_close (fuel : Nat) (r : List Char) :
    parseFields (fuel + 1) (rCurly :: r) = some (Json.obj [], r) := rfl

theorem parseValue_skipws (fuel : Nat) {p : List Char} (q : List Char)
    (hp : ∀ c ∈ p, isJsonWs c = true) :
    parseValue fuel (p ++ q) = parseValue fuel q := by
  match fuel with
  | 0 => rfl
  | fuel + 1 =>
    simp only [parseValue]
    rw [skipWs_ws_front hp]

theorem isJsonWs_false {c : Char}
    (h : c.toNat ≠ 32 ∧ c.toNat ≠ 9 ∧ c.toNat ≠ 10 ∧ c.toNat ≠ 13) :
    isJsonWs c = false := by
  have e1 : c ≠ ' ' := char_ne_of_toNat_ne (by simpa using h.1)
  have e2 : c ≠ Char.ofNat 9 := char_ne_of_toNat_ne (by simpa using h.2.1)
  have e3 : c ≠ Char.ofNat 10 := char_ne_of_toNat_ne (by simpa using h.2.2.1)
  have e4 : c ≠ Char.ofNat 13 := char_ne_of_toNat_ne (by simpa using h.2.2.2)
  simp [isJsonWs, e1, e2, e3, e4]

theorem intChars_head (n : Int) :
    ∃ c t, intChars n = c :: t ∧ (c = '-' ∨ 48 ≤ c.toNat ∧ c.toNat ≤ 57) := by
  by_cases hneg : n < 0
  · exact ⟨'-', natChars n.natAbs, by rw [intChars, if_pos hneg], Or.inl rfl⟩
  · obtain ⟨d, t, ht, hd10⟩ := natChars_head_any n.toNat
    refine ⟨digitChar d, t, by rw [intChars, if_neg hneg, ht], Or.inr ?_⟩
    rw [digitChar_toNat hd10]
    omega

theorem printV_head (ind : Nat) (j : Json) :
    ∃ c t, printV ind j = c :: t ∧ isJsonWs c = false ∧ c ≠ ']' := by
  match j with
  | .null => exact ⟨'n', "ull".data, rfl, by decide, by decide⟩
  | .bool true => exact ⟨'t', "rue".data, rfl, by decide, by decide⟩
  | .bool false => exact ⟨'f', "alse".data, rfl, by decide, by decide⟩
  | .num n =>
    obtain ⟨c, t, ht, hc⟩ := intChars_head n
    refine ⟨c, t, by rw [printV, ht], ?_, ?_⟩
    · apply isJsonWs_false
      rcases hc with rfl | hc
      · refine ⟨by decide, by decide, by decide, by decide⟩
      · omega
    · apply char_ne_of_toNat_ne
      rcases hc with rfl | hc
      · decide
      · show c.toNat ≠ 93
        omega
  | .str s => exact ⟨jsQuote, escapeString s ++ [jsQuote], rfl, by decide, by decide⟩
  | .arr [] => exact ⟨'[', [']'], rfl, by decide, by decide⟩
  | .arr (x :: xs) =>
    exact ⟨'[', _, rfl, by decide, by decide⟩
  | .obj [] => exact ⟨lCurly, [rCurly], rfl, by decide, by decide⟩
  | .obj (f :: fs) => exact ⟨lCurly, _, rfl, by decide, by decide⟩

theorem keysNodup_iff (ks : List (List Char)) : keysNodup ks = true ↔ ks.Nodup := by
  induction ks with
  | nil => simp [keysNodup]
  | cons k ks ih =>
    rw [keysNodup, Bool.and_eq_true, Bool.not_eq_true', List.nodup_cons, ← ih]
    have hc : (ks.contains k = false) ↔ k ∉ ks := by
      rw [show ks.contains k = List.elem k ks from rfl, ← Bool.not_eq_true,
        List.elem_iff]
    rw [hc]

theorem objInsert_append (acc : List (List Char × Json)) (k : List Char) (v : Json)
    (h : k ∉ acc.map Prod.fst) : objInsert acc k v = acc ++ [(k, v)] := by
  induction acc with
  | nil => rfl
  | cons f fs ih =>
    simp only [List.map_cons, List.mem_cons, not_or] at h
    rw [objInsert, if_neg (fun he => h.1 he.symm), ih h.2]
    rfl

theorem needElems_eq_tail (xs : List Json) : needElems xs = needElemsTail xs := by
  cases xs <;> rfl

theorem needFields_eq_tail (fs : List (List Char × Json)) :
    needFields fs = needFieldsTail fs := by
  cases fs <;> rfl

theorem printArrItems_cons (ind : Nat) (y : Json) (ys : List Json) :
    printArrItems ind (y :: ys) =
      indentChars ind ++ (printV ind y ++
        (match ys with
         | [] => []
         | _ :: _ => ',' :: ('\n' :: printArrItems ind ys))) := by
  cases ys
  · simp [printArrItems]
  · rfl

theorem printObjItems_cons (ind : Nat) (g : List Char × Json)
    (gs : List (List Char × Json)) :
    printObjItems ind (g :: gs) =
      indentChars ind ++ (quoteString g.1 ++ (':' :: (' ' :: (printV ind g.2 ++
        (match gs with
         | [] => []
         | _ :: _ => ',' :: ('\n' :: printObjItems ind gs)))))) := by
  cases gs
  · simp [printObjItems]
  · rfl

theorem newline_indent_ws (ind : Nat) :
    ∀ c ∈ '\n' :: indentChars ind, isJsonWs c = true := by
  intro c hc
  rcases List.mem_cons.mp hc with rfl | hc
  · decide
  · exact indentChars_ws ind c hc

theorem parseElemsTail_close (fuel : Nat) (acc : List Json) (r : List Char) :
    parseElemsTail (fuel + 1) acc (']' :: r) = some (Json.arr acc, r) := rfl

theorem parseElemsTail_comma (fuel : Nat) (acc : List Json) (r : List Char) :
    parseElemsTail (fuel + 1) acc (',' :: r) =
      (match parseValue fuel r with
       | some (v, rest2) => parseElemsTail fuel (acc ++ [v]) rest2
       | none => none) := rfl

theorem parseElemsTail_skipws (fuel : Nat) (acc : List Json) {p : List Char}
    (q : List Char) (hp : ∀ c ∈ p, isJsonWs c = true) :
    parseElemsTail fuel acc (p ++ q) = parseElemsTail fuel acc q := by
  match fuel with
  | 0 => rfl
  | fuel + 1 =>
    simp only [parseElemsTail]
    rw [skipWs_ws_front hp]

theorem parseElems_skipws (fuel : Nat) {p : List Char} (q : List Char)
    (hp : ∀ c ∈ p, isJsonWs c = true) :
    parseElems fuel (p ++ q) = parseElems fuel q := by
  match fuel with
  | 0 => rfl
  | fuel + 1 =>
    simp only [parseElems]
    rw [skipWs_ws_front hp]

theorem parseElems_value (fuel : Nat) {c : Char} (r : List Char)
    (hws : isJsonWs c = false) (hc : c ≠ ']') :
    parseElems (fuel + 1) (c :: r) =
      (match parseValue fuel (c :: r) with
       | some (v, rest2) => parseElemsTail fuel [v] rest2
       | none => none) := by
  conv_lhs => rw [parseElems]
  rw [skipWs_not_ws hws]
  show (if c = ']' then some (Json.arr [], r)
    else match parseValue fuel (c :: r) with
      | some (v, rest) => parseElemsTail fuel [v] rest
      | none => none) = _
  rw [if_neg hc]

theorem arrItemsSep_head_facts (ind : Nat) (ys : List Json) (tail : List Char) :
    noDigitStart (arrItemsSep ind ys ++ ('\n' :: tail)) := by
  cases ys
  · show ('\n' : Char).isDigit = false
    decide
  · show (',' : Char).isDigit = false
    decide

theorem printArrItems_cons_sep (ind : Nat) (y : Json) (ys : List Json) :
    printArrItems ind (y :: ys) =
      indentChars ind ++ (printV ind y ++ arrItemsSep ind ys) := by
  cases ys
  · simp [printArrItems, arrItemsSep]
  · rfl

theorem printObjItems_cons_sep (ind : Nat) (g : List Char × Json)
    (gs : List (List Char × Json)) :
    printObjItems ind (g :: gs) =
      indentChars ind ++ (quoteString g.1 ++ (':' :: (' ' :: (printV ind g.2 ++
        objItemsSep ind gs)))) := by
  cases gs
  · simp [printObjItems, objItemsSep]
  · rfl

theorem parseElemsTail_items (ind : Nat) (rest : List Char) :
    ∀ (ys : List Json) (acc : List Json) (fuel : Nat),
      (∀ y ∈ ys, ∀ fuel2 rest2, needV y ≤ fuel2 → noDigitStart rest2 →
        parseValue fuel2 (printV (ind + 2) y ++ rest2) = some (y, rest2)) →
      needElemsTail ys ≤ fuel →
      parseElemsTail fuel acc
        (arrItemsSep (ind + 2) ys ++ ('\n' :: (indentChars ind ++ (']' :: rest)))) =
      some (Json.arr (acc ++ ys), rest) := by
  intro ys
  induction ys with
  | nil =>
    intro acc fuel _ hfuel
    have h1 : 1 ≤ fuel := le_trans (by rw [needElemsTail]) hfuel
    obtain ⟨f, rfl⟩ : ∃ f, fuel = f + 1 := ⟨fuel - 1, by omega⟩
    show parseElemsTail (f + 1) acc
      (([] : List Char) ++ ('\n' :: (indentChars ind ++ (']' :: rest)))) = _
    rw [List.nil_append,
      show ('\n' :: (indentChars ind ++ (']' :: rest))) =
        (('\n' :: indentChars ind) ++ (']' :: rest)) from by simp,
      parseElemsTail_skipws (f + 1) acc _ (newline_indent_ws ind),
      parseElemsTail_close]
    rw [List.append_nil]
  | cons y ys ih =>
    intro acc fuel hparse hfuel
    rw [needElemsTail] at hfuel
    obtain ⟨f, rfl⟩ : ∃ f, fuel = f + 1 := ⟨fuel - 1, by omega⟩
    have hmax : Nat.max (needV y) (needElemsTail ys) ≤ f := by omega
    obtain ⟨hy, hys⟩ := Nat.max_le.mp hmax
    show parseElemsTail (f + 1) acc
      ((',' :: ('\n' :: printArrItems (ind + 2) (y :: ys))) ++
        ('\n' :: (indentChars ind ++ (']' :: rest)))) = _
    rw [List.cons_append, List.cons_append, parseElemsTail_comma]
    have hshape : ('\n' : Char) :: (printArrItems (ind + 2) (y :: ys) ++
        ('\n' :: (indentChars ind ++ (']' :: rest)))) =
        ('\n' :: indentChars (ind + 2)) ++ (printV (ind + 2) y ++
          (arrItemsSep (ind + 2) ys ++ ('\n' :: (indentChars ind ++ (']' :: rest))))) := by
      rw [printArrItems_cons_sep]
      simp [List.append_assoc]
    have hv : parseValue f ('\n' :: (printArrItems (ind + 2) (y :: ys) ++
        ('\n' :: (indentChars ind ++ (']' :: rest))))) =
        some (y, arrItemsSep (ind + 2) ys ++
          ('\n' :: (indentChars ind ++ (']' :: rest)))) := by
      rw [hshape, parseValue_skipws f _ (newline_indent_ws (ind + 2))]
      exact hparse y (by simp) f _ hy (arrItemsSep_head_facts _ ys _)
    rw [hv]
    show parseElemsTail f (acc ++ [y])
      (arrItemsSep (ind + 2) ys ++ ('\n' :: (indentChars ind ++ (']' :: rest)))) = _
    rw [ih (acc ++ [y]) f (fun z hz => hparse z (by simp [hz])) hys]
    simp

theorem parseFieldsTail_close (fuel : Nat) (acc : List (List Char × Json))
    (r : List Char) :
    parseFieldsTail (fuel + 1) acc (rCurly :: r) = some (Json.obj acc, r) := rfl

theorem parseFieldsTail_step (f : Nat) (acc : List (List Char × Json)) (ind2 : Nat)
    (k T : List Char) :
    parseFieldsTail (f + 1) acc
      (',' :: ('\n' :: (indentChars ind2 ++ (jsQuote :: (escapeString k ++ (jsQuote :: T)))))) =
      (match skipWs T with
       | ':' :: r4 =>
         (match parseValue f r4 with
          | some (v, rest2) => parseFieldsTail f (objInsert acc k v) rest2
          | none => none)
       | _ => none) := by
  conv_lhs => rw [parseFieldsTail]
  rw [skipWs_not_ws (by decide)]
  show (match skipWs (('\n' :: indentChars ind2) ++ (jsQuote :: (escapeString k ++ (jsQuote :: T)))) with
    | c2 :: r2 =>
      if c2 = jsQuote then
        (match parseStringAfterQuote r2 with
         | some (k2, r3) =>
           (match skipWs r3 with
            | ':' :: r4 =>
              (match parseValue f r4 with
               | some (v, rest2) => parseFieldsTail f (objInsert acc k2 v) rest2
               | none => none)
            | _ => none)
         | none => none)
      else none
    | [] => none) = _
  rw [skipWs_ws_front (newline_indent_ws ind2), skipWs_not_ws (by decide)]
  show (match parseStringAfterQuote (escapeString k ++ (jsQuote :: T)) with
    | some (k2, r3) =>
      (match skipWs r3 with
       | ':' :: r4 =>
         (match parseValue f r4 with
          | some (v, rest2) => parseFieldsTail f (objInsert acc k2 v) rest2
          | none => none)
       | _ => none)
    | none => none) = _
  rw [parseStringAfterQuote_escape]

theorem parseFields_step (f : Nat) (ind2 : Nat) (k T : List Char) :
    parseFields (f + 1)
      ('\n' :: (indentChars ind2 ++ (jsQuote :: (escapeString k ++ (jsQuote :: T))))) =
      (match skipWs T with
       | ':' :: r4 =>
         (match parseValue f r4 with
          | some (v, rest2) => parseFieldsTail f (objInsert [] k v) rest2
          | none => none)
       | _ => none) := by
  conv_lhs => rw [parseFields]
  show (match skipWs (('\n' :: indentChars ind2) ++ (jsQuote :: (escapeString k ++ (jsQuote :: T)))) with
    | [] => none
    | c :: r =>
      if c = rCurly then some (Json.obj [], r)
      else if c = jsQuote then
        (match parseStringAfterQuote r with
         | some (k2, r2) =>
           (match skipWs r2 with
            | ':' :: r3 =>
              (match parseValue f r3 with
               | some (v, rest2) => parseFieldsTail f (objInsert [] k2 v) rest2
               | none => none)
            | _ => none)
         | none => none)
      else none) = _
  rw [skipWs_ws_front (newline_indent_ws ind2), skipWs_not_ws (by decide)]
  show (match parseStringAfterQuote (escapeString k ++ (jsQuote :: T)) with
    | some (k2, r2) =>
      (match skipWs r2 with
       | ':' :: r3 =>
         (match parseValue f r3 with
          | some (v, rest2) => parseFieldsTail f (objInsert [] k2 v) rest2
          | none => none)
       | _ => none)
    | none => none) = _
  rw [parseStringAfterQuote_escape]

theorem parseFieldsTail_items (ind : Nat) (rest : List Char) :
    ∀ (gs : List (List Char × Json)) (acc : List (List Char × Json)) (fuel : Nat),
      (∀ g ∈ gs, ∀ fuel2 rest2, needV g.2 ≤ fuel2 → noDigitStart rest2 →
        parseValue fuel2 (printV (ind + 2) g.2 ++ rest2) = some (g.2, rest2)) →
      needFieldsTail gs ≤ fuel →
      ((acc ++ gs).map Prod.fst).Nodup →
      parseFieldsTail fuel acc
        (objItemsSep (ind + 2) gs ++ ('\n' :: (indentChars ind ++ (rCurly :: rest)))) =
      some (Json.obj (acc ++ gs), rest) := by
  intro gs
  induction gs with
  | nil =>
    intro acc fuel _ hfuel _
    have h1 : 1 ≤ fuel := le_trans (by rw [needFieldsTail]) hfuel
    obtain ⟨f, rfl⟩ : ∃ f, fuel = f + 1 := ⟨fuel - 1, by omega⟩
    show parseFieldsTail (f + 1) acc
      (([] : List Char) ++ ('\n' :: (indentChars ind ++ (rCurly :: rest)))) = _
    rw [List.nil_append,
      show ('\n' :: (indentChars ind ++ (rCurly :: rest))) =
        (('\n' :: indentChars ind) ++ (rCurly :: rest)) from by simp]
    have habs : parseFieldsTail (f + 1) acc
        (('\n' :: indentChars ind) ++ (rCurly :: rest)) =
        parseFieldsTail (f + 1) acc (rCurly :: rest) := by
      simp only [parseFieldsTail]
      rw [skipWs_ws_front (newline_indent_ws ind)]
    rw [habs, parseFieldsTail_close, List.append_nil]
  | cons g gs ih =>
    intro acc fuel hparse hfuel hnodup
    rw [needFieldsTail] at hfuel
    obtain ⟨f, rfl⟩ : ∃ f, fuel = f + 1 := ⟨fuel - 1, by omega⟩
    have hmax : Nat.max (needV g.2) (needFieldsTail gs) ≤ f := by omega
    obtain ⟨hg, hgs⟩ := Nat.max_le.mp hmax
    have hshape : objItemsSep (ind + 2) (g :: gs) ++
        ('\n' :: (indentChars ind ++ (rCurly :: rest))) =
        ',' :: ('\n' :: (indentChars (ind + 2) ++ (jsQuote :: (escapeString g.1 ++
          (jsQuote :: (':' :: (' ' :: (printV (ind + 2) g.2 ++
            (objItemsSep (ind + 2) gs ++
              ('\n' :: (indentChars ind ++ (rCurly :: rest)))))))))))) := by
      rw [objItemsSep, printObjItems_cons_sep, quoteString]
      simp [List.append_assoc]
    rw [hshape, parseFieldsTail_step]
    rw [skipWs_not_ws (by decide)]
    show (match parseValue f
        (' ' :: (printV (ind + 2) g.2 ++ (objItemsSep (ind + 2) gs ++
          ('\n' :: (indentChars ind ++ (rCurly :: rest)))))) with
      | some (v, rest2) => parseFieldsTail f (objInsert acc g.1 v) rest2
      | none => none) = _
    have hnd : noDigitStart (objItemsSep (ind + 2) gs ++
        ('\n' :: (indentChars ind ++ (rCurly :: rest)))) := by
      cases gs
      · show ('\n' : Char).isDigit = false
        decide
      · show (',' : Char).isDigit = false
        decide
    have hv : parseValue f (' ' :: (printV (ind + 2) g.2 ++ (objItemsSep (ind + 2) gs ++
        ('\n' :: (indentChars ind ++ (rCurly :: rest)))))) =
        some (g.2, objItemsSep (ind + 2) gs ++
          ('\n' :: (indentChars ind ++ (rCurly :: rest)))) := by
      rw [show (' ' :: (printV (ind + 2) g.2 ++ (objItemsSep (ind + 2) gs ++
          ('\n' :: (indentChars ind ++ (rCurly :: rest)))))) =
        ([' '] ++ (printV (ind + 2) g.2 ++ (objItemsSep (ind + 2) gs ++
          ('\n' :: (indentChars ind ++ (rCurly :: rest)))))) from rfl]
      rw [parseValue_skipws f _ (by intro c hc; simp at hc; rw [hc]; decide)]
      exact hparse g (by simp) f _ hg hnd
    rw [hv]
    show parseFieldsTail f (objInsert acc g.1 g.2)
      (objItemsSep (ind + 2) gs ++ ('\n' :: (indentChars ind ++ (rCurly :: rest)))) = _
    have hkey : g.1 ∉ acc.map Prod.fst := by
      intro hmem
      rw [List.map_append] at hnodup
      have hdisj := (List.nodup_append.mp hnodup).2.2
      exact hdisj hmem (List.mem_map_of_mem Prod.fst (List.mem_cons_self g gs))
    rw [objInsert_append acc g.1 g.2 hkey]
    have hnodup2 : (((acc ++ [g]) ++ gs).map Prod.fst).Nodup := by
      rw [List.append_assoc]
      simpa using hnodup
    rw [ih (acc ++ [g]) f (fun z hz => hparse z (by simp [hz])) hgs
      (by simpa using hnodup2)]
    simp

theorem parseValue_number (fuel : Nat) {c : Char} (T : List Char)
    (hc : c = '-' ∨ 48 ≤ c.toNat ∧ c.toNat ≤ 57) :
    parseValue (fuel + 1) (c :: T) = parseNumber (c :: T) := by
  have hval : c.toNat = 45 ∨ 48 ≤ c.toNat ∧ c.toNat ≤ 57 := by
    rcases hc with rfl | h
    · left
      rfl
    · right
      exact h
  simp only [parseValue]
  rw [skipWs_not_ws (isJsonWs_false (by omega))]
  show (if c = 'n' then
      (match T with
       | 'u' :: 'l' :: 'l' :: rest => some (Json.null, rest)
       | _ => none)
    else if c = 't' then
      (match T with
       | 'r' :: 'u' :: 'e' :: rest => some (Json.bool true, rest)
       | _ => none)
    else if c = 'f' then
      (match T with
       | 'a' :: 'l' :: 's' :: 'e' :: rest => some (Json.bool false, rest)
       | _ => none)
    else if c = jsQuote then Option.map (fun p => (Json.str p.1, p.2)) (parseStringAfterQuote T)
    else if c = '[' then parseElems fuel T
    else if c = lCurly then parseFields fuel T
    else if (decide (c = '-') || c.isDigit) = true then parseNumber (c :: T)
    else none) = parseNumber (c :: T)
  rw [if_neg (char_ne_of_toNat_ne (show c.toNat ≠ 110 by omega)),
    if_neg (char_ne_of_toNat_ne (show c.toNat ≠ 116 by omega)),
    if_neg (char_ne_of_toNat_ne (show c.toNat ≠ 102 by omega)),
    if_neg (char_ne_of_toNat_ne (show c.toNat ≠ 34 by omega)),
    if_neg (char_ne_of_toNat_ne (show c.toNat ≠ 91 by omega)),
    if_neg (char_ne_of_toNat_ne (show c.toNat ≠ 123 by omega))]
  rw [if_pos]
  rcases hc with rfl | h
  · simp
  · have : c.isDigit = true := isDigit_iff_toNat.mpr h
    simp [this]

theorem wfList_mem {xs : List Json} (h : Json.wfList xs = true) :
    ∀ y ∈ xs, Json.wf y = true := by
  induction xs with
  | nil => intro y hy; cases hy
  | cons x xs ih =>
    rw [Json.wfList, Bool.and_eq_true] at h
    intro y hy
    rcases List.mem_cons.mp hy with rfl | hy
    · exact h.1
    · exact ih h.2 y hy

theorem wfFields_mem {fs : List (List Char × Json)} (h : Json.wfFields fs = true) :
    ∀ g ∈ fs, Json.wf g.2 = true := by
  induction fs with
  | nil => intro g hg; cases hg
  | cons f fs ih =>
    rw [Json.wfFields, Bool.and_eq_true] at h
    intro g hg
    rcases List.mem_cons.mp hg with rfl | hg
    · exact h.1
    · exact ih h.2 g hg

theorem sizeOf_mem_elems {x : Json} {xs : List Json} (hx : x ∈ xs) :
    sizeOf x < sizeOf (Json.arr xs) := by
  have h1 : sizeOf x < sizeOf xs := List.sizeOf_lt_of_mem hx
  simp only [Json.arr.sizeOf_spec]
  omega

theorem sizeOf_mem_fields {g : List Char × Json} {fs : List (List Char × Json)}
    (hg : g ∈ fs) : sizeOf g.2 < sizeOf (Json.obj fs) := by
  have h1 : sizeOf g < sizeOf fs := List.sizeOf_lt_of_mem hg
  have h2 : sizeOf g = 1 + sizeOf g.1 + sizeOf g.2 := by
    obtain ⟨a, b⟩ := g
    simp
  simp only [Json.obj.sizeOf_spec]
  omega

theorem parse_printV : ∀ (n : Nat) (j : Json), sizeOf j ≤ n → Json.wf j = true →
    ∀ fuel ind rest, needV j ≤ fuel → noDigitStart rest →
      parseValue fuel (printV ind j ++ rest) = some (j, rest) := by
  intro n
  induction n with
  | zero =>
    intro j hj
    exact absurd hj (by cases j <;> simp)
  | succ n ih =>
    intro j hj hwf fuel ind rest hfuel hrest
    match j with
    | .null =>
      obtain ⟨f, rfl⟩ : ∃ f, fuel = f + 1 := ⟨fuel - 1, by rw [needV] at hfuel; omega⟩
      rfl
    | .bool true =>
      obtain ⟨f, rfl⟩ : ∃ f, fuel = f + 1 := ⟨fuel - 1, by rw [needV] at hfuel; omega⟩
      rfl
    | .bool false =>
      obtain ⟨f, rfl⟩ : ∃ f, fuel = f + 1 := ⟨fuel - 1, by rw [needV] at hfuel; omega⟩
      rfl
    | .num m =>
      obtain ⟨f, rfl⟩ : ∃ f, fuel = f + 1 := ⟨fuel - 1, by rw [needV] at hfuel; omega⟩
      obtain ⟨c, t, ht, hc⟩ := intChars_head m
      have hc2 : c = '-' ∨ 48 ≤ c.toNat ∧ c.toNat ≤ 57 := hc
      show parseValue (f + 1) (intChars m ++ rest) = some (Json.num m, rest)
      rw [ht, List.cons_append, parseValue_number f _ hc2, ← List.cons_append, ← ht]
      exact parseNumber_intChars m rest hrest
    | .str s =>
      obtain ⟨f, rfl⟩ : ∃ f, fuel = f + 1 := ⟨fuel - 1, by rw [needV] at hfuel; omega⟩
      have hshape : printV ind (Json.str s) ++ rest =
          jsQuote :: (escapeString s ++ (jsQuote :: rest)) := by
        show quoteString s ++ rest = _
        rw [quoteString]
        simp [List.append_assoc]
      rw [hshape, parseValue_quote, parseStringAfterQuote_escape]
      rfl
    | .arr [] =>
      obtain ⟨f, rfl⟩ : ∃ f, fuel = f + 2 := by
        rw [needV, needElems] at hfuel
        exact ⟨fuel - 2, by omega⟩
      rfl
    | .arr (x :: xs) =>
      rw [needV, needElems] at hfuel
      obtain ⟨f, rfl⟩ : ∃ f, fuel = f + 2 := ⟨fuel - 2, by omega⟩
      have hmax : Nat.max (needV x) (needElemsTail xs) ≤ f := by omega
      obtain ⟨hx, hxs⟩ := Nat.max_le.mp hmax
      have hwfl : Json.wfList (x :: xs) = true := hwf
      have hwfx : Json.wf x = true := wfList_mem hwfl x (by simp)
      have hsize : sizeOf (x :: xs) ≤ n := by
        have : sizeOf (Json.arr (x :: xs)) = 1 + sizeOf (x :: xs) := by simp
        omega
      have helem : ∀ y ∈ x :: xs, ∀ fuel2 rest2, needV y ≤ fuel2 → noDigitStart rest2 →
          parseValue fuel2 (printV (ind + 2) y ++ rest2) = some (y, rest2) := by
        intro y hy fuel2 rest2 hf2 hr2
        have hys : sizeOf y ≤ n := by
          have := List.sizeOf_lt_of_mem hy
          omega
        exact ih y hys (wfList_mem hwfl y hy) fuel2 (ind + 2) rest2 hf2 hr2
      have hshape : printV ind (Json.arr (x :: xs)) ++ rest =
          '[' :: ('\n' :: (printArrItems (ind + 2) (x :: xs) ++
            ('\n' :: (indentChars ind ++ (']' :: rest))))) := by
        rw [printV]
        simp [List.append_assoc]
      rw [hshape]
      rw [show (f + 2) = (f + 1) + 1 from rfl, parseValue_lbracket]
      have hshape2 : ('\n' : Char) :: (printArrItems (ind + 2) (x :: xs) ++
          ('\n' :: (indentChars ind ++ (']' :: rest)))) =
          ('\n' :: indentChars (ind + 2)) ++ (printV (ind + 2) x ++
            (arrItemsSep (ind + 2) xs ++ ('\n' :: (indentChars ind ++ (']' :: rest))))) := by
        rw [printArrItems_cons_sep]
        simp [List.append_assoc]
      rw [hshape2, parseElems_skipws (f + 1) _ (newline_indent_ws (ind + 2))]
      obtain ⟨c, t, hct, hcw, hcb⟩ := printV_head (ind + 2) x
      rw [hct, List.cons_append, parseElems_value f _ hcw hcb, ← List.cons_append, ← hct]
      have hndx : noDigitStart (arrItemsSep (ind + 2) xs ++
          ('\n' :: (indentChars ind ++ (']' :: rest)))) :=
        arrItemsSep_head_facts (ind + 2) xs _
      have hvx := helem x (by simp) f
        (arrItemsSep (ind + 2) xs ++ ('\n' :: (indentChars ind ++ (']' :: rest))))
        hx hndx
      rw [hvx]
      show parseElemsTail f [x]
        (arrItemsSep (ind + 2) xs ++ ('\n' :: (indentChars ind ++ (']' :: rest)))) = _
      rw [parseElemsTail_items ind rest xs [x] f
        (fun z hz => helem z (by simp [hz])) hxs]
      simp
    | .obj [] =>
      obtain ⟨f, rfl⟩ : ∃ f, fuel = f + 2 := by
        rw [needV, needFields] at hfuel
        exact ⟨fuel - 2, by omega⟩
      rfl
    | .obj (g :: gs) =>
      rw [needV, needFields] at hfuel
      obtain ⟨f, rfl⟩ : ∃ f, fuel = f + 2 := ⟨fuel - 2, by omega⟩
      have hmax : Nat.max (needV g.2) (needFieldsTail gs) ≤ f := by omega
      obtain ⟨hg, hgs⟩ := Nat.max_le.mp hmax
      have hwfo : keysNodup (keysOf (g :: gs)) = true ∧ Json.wfFields (g :: gs) = true := by
        have : Json.wf (Json.obj (g :: gs)) =
            (keysNodup (keysOf (g :: gs)) && Json.wfFields (g :: gs)) := rfl
        rw [this, Bool.and_eq_true] at hwf
        exact hwf
      have helem : ∀ z ∈ g :: gs, ∀ fuel2 rest2, needV z.2 ≤ fuel2 → noDigitStart rest2 →
          parseValue fuel2 (printV (ind + 2) z.2 ++ rest2) = some (z.2, rest2) := by
        intro z hz fuel2 rest2 hf2 hr2
        have hzs : sizeOf z.2 ≤ n := by
          have h1 := sizeOf_mem_fields hz
          have h2 : sizeOf (Json.obj (g :: gs)) ≤ n + 1 := hj
          omega
        exact ih z.2 hzs (wfFields_mem hwfo.2 z hz) fuel2 (ind + 2) rest2 hf2 hr2
      have hshape : printV ind (Json.obj (g :: gs)) ++ rest =
          lCurly :: ('\n' :: (indentChars (ind + 2) ++ (jsQuote :: (escapeString g.1 ++
            (jsQuote :: (':' :: (' ' :: (printV (ind + 2) g.2 ++
              (objItemsSep (ind + 2) gs ++
                ('\n' :: (indentChars ind ++ (rCurly :: rest)))))))))))) := by
        rw [printV, printObjItems_cons_sep, quoteString]
        simp [List.append_assoc]
      rw [hshape]
      rw [show (f + 2) = (f + 1) + 1 from rfl, parseValue_lcurly, parseFields_step]
      rw [skipWs_not_ws (by decide)]
      show (match parseValue f
          (' ' :: (printV (ind + 2) g.2 ++ (objItemsSep (ind + 2) gs ++
            ('\n' :: (indentChars ind ++ (rCurly :: rest)))))) with
        | some (v, rest2) => parseFieldsTail f (objInsert [] g.1 v) rest2
        | none => none) = _
      have hnd : noDigitStart (objItemsSep (ind + 2) gs ++
          ('\n' :: (indentChars ind ++ (rCurly :: rest)))) := by
        cases gs
        · show ('\n' : Char).isDigit = false
          decide
        · show (',' : Char).isDigit = false
          decide
      have hv : parseValue f (' ' :: (printV (ind + 2) g.2 ++ (objItemsSep (ind + 2) gs ++
          ('\n' :: (indentChars ind ++ (rCurly :: rest)))))) =
          some (g.2, objItemsSep (ind + 2) gs ++
            ('\n' :: (indentChars ind ++ (rCurly :: rest)))) := by
        rw [show (' ' :: (printV (ind + 2) g.2 ++ (objItemsSep (ind + 2) gs ++
            ('\n' :: (indentChars ind ++ (rCurly :: rest)))))) =
          ([' '] ++ (printV (ind + 2) g.2 ++ (objItemsSep (ind + 2) gs ++
            ('\n' :: (indentChars ind ++ (rCurly :: rest)))))) from rfl]
        rw [parseValue_skipws f _ (by intro c hc; simp at hc; rw [hc]; decide)]
        exact helem g (by simp) f _ hg hnd
      rw [hv]
      show parseFieldsTail f (objInsert [] g.1 g.2)
        (objItemsSep (ind + 2) gs ++ ('\n' :: (indentChars ind ++ (rCurly :: rest)))) = _
      have hnodup : (([g] ++ gs).map Prod.fst).Nodup := by
        have h := (keysNodup_iff (keysOf (g :: gs))).mp hwfo.1
        rw [keysOf] at h
        rw [List.singleton_append]
        exact h
      rw [show objInsert [] g.1 g.2 = [g] from rfl]
      rw [parseFieldsTail_items ind rest gs [g] f
        (fun z hz => helem z (by simp [hz])) hgs hnodup]
      simp

theorem needElemsTail_le (ind : Nat) :
    ∀ ys : List Json, (∀ y ∈ ys, needV y ≤ (printV ind y).length + 1) →
      needElemsTail ys ≤ (printArrItems ind ys).length + 2 := by
  intro ys
  induction ys with
  | nil =>
    intro _
    rw [needElemsTail]
    omega
  | cons y ys ih =>
    intro hyp
    rw [needElemsTail, printArrItems_cons_sep]
    have h1 : needV y ≤ (printV ind y).length + 1 := hyp y (by simp)
    have h2 : needElemsTail ys ≤ (printArrItems ind ys).length + 2 :=
      ih fun z hz => hyp z (by simp [hz])
    simp only [List.length_append, indentChars, List.length_replicate]
    cases ys with
    | nil =>
      rw [needElemsTail] at h2
      have hs : (arrItemsSep ind []).length = 0 := rfl
      rw [hs, show needElemsTail ([] : List Json) = 1 from rfl]
      have hm : Nat.max (needV y) 1 ≤ (printV ind y).length + 1 :=
        Nat.max_le.mpr ⟨h1, by omega⟩
      omega
    | cons z zs =>
      have hs : (arrItemsSep ind (z :: zs)).length =
          2 + (printArrItems ind (z :: zs)).length := by
        rw [arrItemsSep]
        simp
        omega
      rw [hs]
      have hm : Nat.max (needV y) (needElemsTail (z :: zs)) ≤
          (printV ind y).length + (printArrItems ind (z :: zs)).length + 2 :=
        Nat.max_le.mpr ⟨by omega, by omega⟩
      omega

theorem needFieldsTail_le (ind : Nat) :
    ∀ gs : List (List Char × Json),
      (∀ g ∈ gs, needV g.2 ≤ (printV ind g.2).length + 1) →
      needFieldsTail gs ≤ (printObjItems ind gs).length + 2 := by
  intro gs
  induction gs with
  | nil =>
    intro _
    rw [needFieldsTail]
    omega
  | cons g gs ih =>
    intro hyp
    rw [needFieldsTail, printObjItems_cons_sep]
    have h1 : needV g.2 ≤ (printV ind g.2).length + 1 := hyp g (by simp)
    have h2 : needFieldsTail gs ≤ (printObjItems ind gs).length + 2 :=
      ih fun z hz => hyp z (by simp [hz])
    simp only [List.length_append, indentChars, List.length_replicate,
      List.length_cons]
    cases gs with
    | nil =>
      rw [needFieldsTail] at h2
      have hs : (objItemsSep ind []).length = 0 := rfl
      rw [hs, show needFieldsTail ([] : List (List Char × Json)) = 1 from rfl]
      have hm : Nat.max (needV g.2) 1 ≤ (printV ind g.2).length + 1 :=
        Nat.max_le.mpr ⟨h1, by omega⟩
      omega
    | cons z zs =>
      have hs : (objItemsSep ind (z :: zs)).length =
          2 + (printObjItems ind (z :: zs)).length := by
        rw [objItemsSep]
        simp
        omega
      rw [hs]
      have hm : Nat.max (needV g.2) (needFieldsTail (z :: zs)) ≤
          (printV ind g.2).length + (printObjItems ind (z :: zs)).length + 2 :=
        Nat.max_le.mpr ⟨by omega, by omega⟩
      omega

theorem needV_le_print : ∀ (n : Nat) (j : Json), sizeOf j ≤ n →
    ∀ ind, needV j ≤ (printV ind j).length + 1 := by
  intro n
  induction n with
  | zero =>
    intro j hj
    exact absurd hj (by cases j <;> simp)
  | succ n ih =>
    intro j hj ind
    match j with
    | .null => rw [needV]; omega
    | .bool true => rw [needV]; omega
    | .bool false => rw [needV]; omega
    | .num m => rw [needV]; omega
    | .str s => rw [needV]; omega
    | .arr [] =>
      rw [needV, needElems]
      show 1 + 1 ≤ 2 + 1
      omega
    | .arr (x :: xs) =>
      rw [needV, needElems]
      have helem : ∀ y ∈ x :: xs, needV y ≤ (printV (ind + 2) y).length + 1 := by
        intro y hy
        have hys : sizeOf y ≤ n := by
          have h1 := List.sizeOf_lt_of_mem hy
          have h2 : sizeOf (Json.arr (x :: xs)) = 1 + sizeOf (x :: xs) := by simp
          omega
        exact ih y hys (ind + 2)
      have h1 : needV x ≤ (printV (ind + 2) x).length + 1 := helem x (by simp)
      have h2 : needElemsTail xs ≤ (printArrItems (ind + 2) xs).length + 2 :=
        needElemsTail_le (ind + 2) xs fun z hz => helem z (by simp [hz])
      have hlen : (printV ind (Json.arr (x :: xs))).length =
          2 + (printArrItems (ind + 2) (x :: xs)).length + 2 + ind := by
        rw [printV]
        simp [indentChars]
        omega
      rw [hlen, printArrItems_cons_sep]
      simp only [List.length_append, indentChars, List.length_replicate]
      cases xs with
      | nil =>
        rw [needElemsTail] at h2
        have hs : (arrItemsSep (ind + 2) ([] : List Json)).length = 0 := rfl
        rw [hs, show needElemsTail ([] : List Json) = 1 from rfl]
        have hm : Nat.max (needV x) 1 ≤ (printV (ind + 2) x).length + 1 :=
          Nat.max_le.mpr ⟨h1, by omega⟩
        omega
      | cons z zs =>
        have hs : (arrItemsSep (ind + 2) (z :: zs)).length =
            2 + (printArrItems (ind + 2) (z :: zs)).length := by
          rw [arrItemsSep]
          simp
          omega
        rw [hs]
        have h2b : needElemsTail (z :: zs) ≤ (printArrItems (ind + 2) (z :: zs)).length + 2 := h2
        have hm : Nat.max (needV x) (needElemsTail (z :: zs)) ≤
            (printV (ind + 2) x).length + (printArrItems (ind + 2) (z :: zs)).length + 2 :=
          Nat.max_le.mpr ⟨by omega, by omega⟩
        omega
    | .obj [] =>
      rw [needV, needFields]
      show 1 + 1 ≤ 2 + 1
      omega
    | .obj (g :: gs) =>
      rw [needV, needFields]
      have helem : ∀ z ∈ g :: gs, needV z.2 ≤ (printV (ind + 2) z.2).length + 1 := by
        intro z hz
        have hzs : sizeOf z.2 ≤ n := by
          have h1 := sizeOf_mem_fields hz
          omega
        exact ih z.2 hzs (ind + 2)
      have h1 : needV g.2 ≤ (printV (ind + 2) g.2).length + 1 := helem g (by simp)
      have h2 : needFieldsTail gs ≤ (printObjItems (ind + 2) gs).length + 2 :=
        needFieldsTail_le (ind + 2) gs fun z hz => helem z (by simp [hz])
      have hlen : (printV ind (Json.obj (g :: gs))).length =
          2 + (printObjItems (ind + 2) (g :: gs)).length + 2 + ind := by
        rw [printV]
        simp [indentChars]
        omega
      rw [hlen, printObjItems_cons_sep]
      simp only [List.length_append, indentChars, List.length_replicate,
        List.length_cons]
      cases gs with
      | nil =>
        rw [needFieldsTail] at h2
        have hs : (objItemsSep (ind + 2) ([] : List (List Char × Json))).length = 0 := rfl
        rw [hs, show needFieldsTail ([] : List (List Char × Json)) = 1 from rfl]
        have hm : Nat.max (needV g.2) 1 ≤ (printV (ind + 2) g.2).length + 1 :=
          Nat.max_le.mpr ⟨h1, by omega⟩
        omega
      | cons z zs =>
        have hs : (objItemsSep (ind + 2) (z :: zs)).length =
            2 + (printObjItems (ind + 2) (z :: zs)).length := by
          rw [objItemsSep]
          simp
          omega
        rw [hs]
        have hm : Nat.max (needV g.2) (needFieldsTail (z :: zs)) ≤
            (printV (ind + 2) g.2).length + (printObjItems (ind + 2) (z :: zs)).length + 2 :=
          Nat.max_le.mpr ⟨by omega, by omega⟩
        omega

theorem jsonParse_print (j : Json) (h : Json.wf j = true) :
    jsonParse (printV 0 j) = some j := by
  rw [jsonParse]
  have hlen : needV j ≤ (printV 0 j).length + 1 :=
    needV_le_print (sizeOf j) j (le_refl _) 0
  have hp := parse_printV (sizeOf j) j (le_refl _) h ((printV 0 j).length + 1) 0 []
    hlen trivial
  rw [List.append_nil] at hp
  rw [hp]
  rfl

theorem wf_docMessages (msgs : List Message) :
    Json.wfList (msgs.map (rawCellJson ∘ messageCell)) = true := by
  induction msgs with
  | nil => rfl
  | cons m ms ih =>
    show (Json.wf (rawCellJson (messageCell m)) &&
      Json.wfList (ms.map (rawCellJson ∘ messageCell))) = true
    rw [show Json.wf (rawCellJson (messageCell m)) = true from rfl, ih]
    rfl

theorem wf_docJson (msgs : List Message) (params : List (List Char × Json))
    (hwp : Json.wf (Json.obj params) = true) :
    Json.wf (Json.obj [("messages".data, Json.arr (msgs.map (rawCellJson ∘ messageCell))),
      ("parameters".data, Json.obj params)]) = true := by
  show (keysNodup ["messages".data, "parameters".data] &&
    (Json.wfList (msgs.map (rawCellJson ∘ messageCell)) &&
      (Json.wf (Json.obj params) && true))) = true
  rw [wf_docMessages msgs, hwp]
  rfl

theorem serializedJson_doc (msgs : List Message) (params : List (List Char × Json)) :
    serializedJson (notebookOfDoc msgs params) =
      Json.obj [("messages".data, Json.arr (msgs.map (rawCellJson ∘ messageCell))),
        ("parameters".data, Json.obj params)] := by
  have hfilter : ((notebookOfDoc msgs params).cells.filter fun c =>
      decide (c.kind = NotebookCellKind.code)) = msgs.map messageCell := by
    apply List.filter_eq_self.mpr
    intro c hc
    obtain ⟨m, _, rfl⟩ := List.mem_map.mp hc
    rfl
  rw [serializedJson, hfilter, List.map_map]
  rfl

theorem cellsOfMessages_doc (msgs : List Message) :
    cellsOfMessages (msgs.map (rawCellJson ∘ messageCell)) =
      Except.ok (msgs.map messageCell) := by
  induction msgs with
  | nil => rfl
  | cons m ms ih =>
    show cellsOfMessages (rawCellJson (messageCell m) ::
      ms.map (rawCellJson ∘ messageCell)) = _
    rw [cellsOfMessages,
      show cellOfMessage (rawCellJson (messageCell m)) =
        Except.ok (messageCell m) from rfl]
    rw [show (do
        let c ← Except.ok (messageCell m)
        let rest ← cellsOfMessages (ms.map (rawCellJson ∘ messageCell))
        Except.ok (c :: rest) : Except Unit (List NotebookCellData)) =
      (do
        let rest ← cellsOfMessages (ms.map (rawCellJson ∘ messageCell))
        Except.ok (messageCell m :: rest)) from rfl]
    rw [ih]
    rfl

theorem deserialize_serialize_doc (msgs : List Message)
    (params : List (List Char × Json)) (hwp : Json.wf (Json.obj params) = true) :
    deserializeNotebook (serializeNotebook (notebookOfDoc msgs params)) =
      { result := Except.ok (notebookOfDoc msgs params), loggedError := false } := by
  have hser : serializeNotebook (notebookOfDoc msgs params) =
      printV 0 (Json.obj [("messages".data,
        Json.arr (msgs.map (rawCellJson ∘ messageCell))),
        ("parameters".data, Json.obj params)]) := by
    rw [serializeNotebook, serializedJson_doc]
    rfl
  have hparse := jsonParse_print _ (wf_docJson msgs params hwp)
  rw [hser]
  simp only [deserializeNotebook]
  rw [hparse]
  have hb : buildNotebook (msgs.map (rawCellJson ∘ messageCell))
      (some (Json.obj params)) = Except.ok (notebookOfDoc msgs params) := by
    rw [buildNotebook, cellsOfMessages_doc]
    rfl
  show DeserializeOutcome.mk
      (buildNotebook (msgs.map (rawCellJson ∘ messageCell)) (some (Json.obj params)))
      false =
    DeserializeOutcome.mk (Except.ok (notebookOfDoc msgs params)) false
  rw [hb]

theorem cellsOfMessages_legacy (msgs : List Message) :
    cellsOfMessages (msgs.map messageJson) = Except.ok (msgs.map messageCell) := by
  induction msgs with
  | nil => rfl
  | cons m ms ih =>
    show cellsOfMessages (messageJson m :: ms.map messageJson) = _
    rw [cellsOfMessages,
      show cellOfMessage (messageJson m) = Except.ok (messageCell m) from rfl]
    rw [show (do
        let c ← Except.ok (messageCell m)
        let rest ← cellsOfMessages (ms.map messageJson)
        Except.ok (c :: rest) : Except Unit (List NotebookCellData)) =
      (do
        let rest ← cellsOfMessages (ms.map messageJson)
        Except.ok (messageCell m :: rest)) from rfl]
    rw [ih]
    rfl

theorem jsonParse_quote_str (r : List Char) :
    ∀ j, jsonParse (jsQuote :: r) = some j → ∃ s, j = Json.str s := by
  intro j h
  simp only [jsonParse, List.length_cons, parseValue_quote] at h
  cases hps : parseStringAfterQuote r with
  | none =>
    rw [hps] at h
    exact Option.noConfusion h
  | some p =>
    rw [hps] at h
    have h2 : (if skipWs p.2 = [] then some (Json.str p.1) else none) = some j := h
    by_cases he : skipWs p.2 = []
    · rw [if_pos he] at h2
      exact ⟨p.1, (Option.some.inj h2).symm⟩
    · rw [if_neg he] at h2
      exact Option.noConfusion h2

/-- C1: serializer round-trip: encoding a conversation document (ordered
role-tagged messages plus a well-formed parameter mapping) and decoding the
produced bytes yields the document back unchanged: the decode succeeds with
no error log, the ordered cell sequence is one code cell per message with
content and role preserved, and the metadata parameter mapping is equal. -/
theorem serializer_round_trip (msgs : List Message) (params : List (List Char × Json))
    (hwp : Json.wf (Json.obj params) = true) :
    deserializeNotebook (serializeNotebook (notebookOfDoc msgs params)) =
      { result := Except.ok (notebookOfDoc msgs params), loggedError := false } ∧
    (notebookOfDoc msgs params).cells = msgs.map messageCell ∧
    metadataParameters (notebookOfDoc msgs params) = Json.obj params :=
  ⟨deserialize_serialize_doc msgs params hwp, rfl, rfl⟩

/-- Witness for C1: the round trip holds at a concrete two-message document
with one parameter. -/
theorem serializer_round_trip_witness :
    Json.wf (Json.obj [("temperature".data, Json.num 7)]) = true ∧
    deserializeNotebook (serializeNotebook (notebookOfDoc
      [⟨"system".data, "You are a translator.".data⟩,
       ⟨"user".data, "Bonjour".data⟩]
      [("temperature".data, Json.num 7)])) =
      { result := Except.ok (notebookOfDoc
          [⟨"system".data, "You are a translator.".data⟩,
           ⟨"user".data, "Bonjour".data⟩]
          [("temperature".data, Json.num 7)]),
        loggedError := false } :=
  ⟨rfl, (serializer_round_trip
    [⟨"system".data, "You are a translator.".data⟩, ⟨"user".data, "Bonjour".data⟩]
    [("temperature".data, Json.num 7)] rfl).1⟩

/-- C2: the claim says decode never raises, including on valid JSON that is
neither an array nor an object carrying a messages list.  The code breaks
this: the bytes null parse as valid JSON, the Array.isArray check fails, and
the for..of loop over serialized.messages throws a TypeError (property
access on null, then iteration of a non-iterable) that escapes
deserializeNotebook; an object without a messages field throws the same
way.  Only the JSON.parse failure is caught. -/
theorem deserialize_null_throws :
    (deserializeNotebook "null".data).result = Except.error () ∧
    (deserializeNotebook "\x7b\x7d".data).result = Except.error () ∧
    jsonParse "null".data = some Json.null ∧
    jsonParse "\x7b\x7d".data = some (Json.obj []) :=
  ⟨rfl, rfl, rfl, rfl⟩

/-- C7: decode of empty bytes yields the two-seed default document (system
translator instruction plus user placeholder, empty parameters) with no
failure logged; decode of any nonempty bytes that fail JSON parsing logs
the failure through console.error and yields that same default document,
without throwing. -/
theorem deserialize_default (s : List Char) (hne : s ≠ [])
    (hbad : jsonParse s = none) :
    deserializeNotebook [] =
      { result := Except.ok
          { cells := [
              { kind := .code,
                value := some (Json.str "You are a translator. You will translate the content provided and return it as valid markdown".data),
                languageId := some (Json.str "system".data) },
              { kind := .code,
                value := some (Json.str "Insert translation content here".data),
                languageId := some (Json.str "user".data) }],
            metadata := some (Json.obj [("parameters".data, Json.obj [])]) },
        loggedError := false } ∧
    deserializeNotebook s =
      { result := (deserializeNotebook []).result, loggedError := true } := by
  refine ⟨rfl, ?_⟩
  simp only [deserializeNotebook]
  rw [hbad]
  have : s.isEmpty = false := by
    cases s
    · exact absurd rfl hne
    · rfl
  rw [this]
  rfl

/-- Witness for C7 at a concrete malformed input. -/
theorem deserialize_default_witness :
    ("not json".data ≠ [] ∧ jsonParse "not json".data = none) ∧
    deserializeNotebook "not json".data =
      { result := (deserializeNotebook []).result, loggedError := true } :=
  ⟨⟨by decide, rfl⟩, (deserialize_default "not json".data (by decide) rfl).2⟩

/-- C8: legacy acceptance: every byte sequence that parses as a bare JSON
array of role/content message objects decodes without error into code
cells carrying exactly those messages in the same order, with an empty
parameters mapping and nothing logged. -/
theorem legacy_array_decode (s : List Char) (msgs : List Message)
    (hp : jsonParse s = some (Json.arr (msgs.map messageJson))) :
    deserializeNotebook s =
      { result := Except.ok { cells := msgs.map messageCell,
                              metadata := some (Json.obj [("parameters".data,
                                Json.obj [])]) },
        loggedError := false } := by
  simp only [deserializeNotebook]
  rw [hp]
  show DeserializeOutcome.mk
      (buildNotebook (msgs.map messageJson) (some (Json.obj []))) false = _
  rw [buildNotebook, cellsOfMessages_legacy]
  rfl

/-- Witness for C8 at a concrete legacy byte sequence. -/
theorem legacy_array_decode_witness :
    jsonParse "[\x7b\"role\": \"user\", \"content\": \"hi\"\x7d]".data =
      some (Json.arr (([⟨"user".data, "hi".data⟩] : List Message).map messageJson)) ∧
    deserializeNotebook "[\x7b\"role\": \"user\", \"content\": \"hi\"\x7d]".data =
      { result := Except.ok
          { cells := ([⟨"user".data, "hi".data⟩] : List Message).map messageCell,
            metadata := some (Json.obj [("parameters".data, Json.obj [])]) },
        loggedError := false } :=
  ⟨rfl, legacy_array_decode _ [⟨"user".data, "hi".data⟩] rfl⟩

/-- C10: the lenient parser can never yield the JSON value null: a strict
parse result of null is nullish, so the quote-wrapped parse (whose result is
always a string when it succeeds) is used instead.  In particular the input
null is committed as the string null, never as JSON null. -/
theorem loosy_never_null :
    (∀ v : List Char, loosyGoosyJSON v ≠ some Json.null) ∧
    loosyGoosyJSON "null".data = some (Json.str "null".data) ∧
    (∀ (params : List (List Char × Json)) (k : List Char) (val : Json)
      (keyIn : Option (List Char)),
      recurseStep params (some (RecursePick.existingParam k val)) keyIn
        (some "null".data) =
        ⟨objInsert params k (Json.str "null".data), true⟩) := by
  refine ⟨?_, rfl, fun params k val keyIn => rfl⟩
  intro v h
  rw [loosyGoosyJSON] at h
  cases ht : tryJSON v with
  | none =>
    rw [ht] at h
    obtain ⟨s, hs⟩ := jsonParse_quote_str (v ++ [jsQuote]) Json.null h
    exact Json.noConfusion hs
  | some j =>
    rw [ht] at h
    match j, h with
    | Json.null, h =>
      obtain ⟨s, hs⟩ := jsonParse_quote_str (v ++ [jsQuote]) Json.null h
      exact Json.noConfusion hs
    | Json.bool b, h => exact Json.noConfusion (Option.some.inj h)
    | Json.num n, h => exact Json.noConfusion (Option.some.inj h)
    | Json.str s, h => exact Json.noConfusion (Option.some.inj h)
    | Json.arr xs, h => exact Json.noConfusion (Option.some.inj h)
    | Json.obj fs, h => exact Json.noConfusion (Option.some.inj h)

/-- Witness for C10 exercising the universally quantified conjuncts at
concrete inputs. -/
theorem loosy_never_null_witness :
    loosyGoosyJSON "xyz".data ≠ some Json.null ∧
    recurseStep [] (some (RecursePick.existingParam "k".data (Json.num 1))) none
      (some "null".data) =
      ⟨objInsert [] "k".data (Json.str "null".data), true⟩ :=
  ⟨loosy_never_null.1 "xyz".data, loosy_never_null.2.2 [] "k".data (Json.num 1) none⟩

/-- C3 counterexample: the claim says the input not-valid-json-brace is
rejected with no mutation; in fact the quote-wrapped parse succeeds, because
a JSON string literal may contain an opening brace, so the value is accepted
by validateInput and committed, mutating the mapping. -/
theorem loosy_brace_accepted :
    loosyGoosyJSON "not valid json \x7b".data =
      some (Json.str "not valid json \x7b".data) ∧
    validateInput "not valid json \x7b".data = none ∧
    recurseStep [] (some RecursePick.newParam) (some "k".data)
      (some "not valid json \x7b".data) =
      ⟨[("k".data, Json.str "not valid json \x7b".data)], true⟩ :=
  ⟨rfl, rfl, rfl⟩

/-- C3 amended: the input English is committed as the string English; the
input 42 is committed as the number 42; an input whose unquoted and
quote-wrapped parses both fail, such as a lone double quote, is rejected
with the inline validation message and commits nothing; committing the
empty-string sentinel on an existing key deletes that key; and the unquoted
parse is always attempted before the quote-wrapped one, deciding the result
whenever it yields a non-nullish value. -/
theorem loosy_parsing_behaviour :
    loosyGoosyJSON "English".data = some (Json.str "English".data) ∧
    loosyGoosyJSON "42".data = some (Json.num 42) ∧
    (loosyGoosyJSON [jsQuote] = none ∧
      validateInput [jsQuote] = some "Format nontrivial input as JSON".data ∧
      ∀ (params : List (List Char × Json)) (pick : Option RecursePick)
        (keyIn : Option (List Char)),
        recurseStep params pick keyIn (some [jsQuote]) = ⟨params, false⟩) ∧
    (∀ (params : List (List Char × Json)) (k : List Char) (v : Json)
      (keyIn : Option (List Char)),
      recurseStep ((k, v) :: params) (some (RecursePick.existingParam k v)) keyIn
        (some []) = ⟨params, true⟩) ∧
    (∀ (v : List Char) (j : Json), tryJSON v = some j → j ≠ Json.null →
      loosyGoosyJSON v = some j) := by
  refine ⟨rfl, rfl, ⟨rfl, rfl, ?_⟩, ?_, ?_⟩
  · intro params pick keyIn
    cases pick with
    | none => rfl
    | some sel =>
      rw [recurseStep]
      cases hrk : resolveKey sel keyIn with
      | none => rfl
      | some k => rfl
  · intro params k v keyIn
    show RecurseOutcome.mk (deleteKey ((k, v) :: params) k) true =
      RecurseOutcome.mk params true
    rw [deleteKey, if_pos rfl]
  · intro v j ht hne
    rw [loosyGoosyJSON, ht]
    match j, hne with
    | Json.bool b, _ => rfl
    | Json.num n, _ => rfl
    | Json.str s, _ => rfl
    | Json.arr xs, _ => rfl
    | Json.obj fs, _ => rfl
    | Json.null, hne => exact absurd rfl hne

/-- Witness for C3 amended, exercising the quantified conjuncts at concrete
inputs. -/
theorem loosy_parsing_behaviour_witness :
    recurseStep [] (some RecursePick.newParam) (some "k".data) (some [jsQuote]) =
      ⟨[], false⟩ ∧
    recurseStep [("lang".data, Json.num 1)]
      (some (RecursePick.existingParam "lang".data (Json.num 1))) none (some []) =
      ⟨[], true⟩ ∧
    (tryJSON "42".data = some (Json.num 42) ∧ Json.num 42 ≠ Json.null ∧
      loosyGoosyJSON "42".data = some (Json.num 42)) :=
  ⟨loosy_parsing_behaviour.2.2.1.2.2 [] (some RecursePick.newParam) (some "k".data),
   loosy_parsing_behaviour.2.2.2.1 [] "lang".data (Json.num 1) none,
   ⟨rfl, fun h => Json.noConfusion h,
    loosy_parsing_behaviour.2.2.2.2 "42".data (Json.num 42) rfl
      (fun h => Json.noConfusion h)⟩⟩

/-- C4 counterexample: choosing New Parameter and then supplying no key name
aborts the iteration, and the function returns without re-invoking itself
(extension.ts line 209), contradicting the claim that the loop shows the
picker again after every abort. -/
theorem recurse_no_key_stops :
    recurseStep [] (some RecursePick.newParam) none none =
      ⟨[], false⟩ ∧
    (recurseStep [] (some RecursePick.newParam) none none).recursed ≠ true := by
  exact ⟨rfl, by decide⟩

/-- C4 amended: the parameter editor re-invokes itself exactly after a
commit is applied: recursed holds iff the picker returned a selection, a
key was resolved, the value prompt was submitted, and the lenient parse of
the submitted value succeeded.  Every abort path (dismissed picker, missing
or empty key name, dismissed value prompt, value failing both parses)
terminates the loop with the mapping unchanged and no re-invocation. -/
theorem recurse_iff_commit (params : List (List Char × Json))
    (pick : Option RecursePick) (keyInput valueInput : Option (List Char)) :
    ((recurseStep params pick keyInput valueInput).recursed = true ↔
      (∃ sel key nv j, pick = some sel ∧ resolveKey sel keyInput = some key ∧
        valueInput = some nv ∧ loosyGoosyJSON nv = some j)) ∧
    ((recurseStep params pick keyInput valueInput).recursed = false →
      (recurseStep params pick keyInput valueInput).parameters = params) := by
  cases pick with
  | none =>
    refine ⟨⟨fun h => Bool.noConfusion h, ?_⟩, fun _ => rfl⟩
    rintro ⟨sel, key, nv, j, hsel, -, -, -⟩
    exact Option.noConfusion hsel
  | some sel =>
    cases hrk : resolveKey sel keyInput with
    | none =>
      have hred : recurseStep params (some sel) keyInput valueInput =
          RecurseOutcome.mk params false := by
        rw [recurseStep, hrk]
      rw [hred]
      refine ⟨⟨fun h => Bool.noConfusion h, ?_⟩, fun _ => rfl⟩
      rintro ⟨sel2, key, nv, j, hsel, hk, -, -⟩
      cases Option.some.inj hsel
      rw [hrk] at hk
      exact Option.noConfusion hk
    | some key =>
      cases valueInput with
      | none =>
        have hred : recurseStep params (some sel) keyInput none =
            RecurseOutcome.mk params false := by
          rw [recurseStep, hrk]
        rw [hred]
        refine ⟨⟨fun h => Bool.noConfusion h, ?_⟩, fun _ => rfl⟩
        rintro ⟨sel2, key2, nv, j, -, -, hnv, -⟩
        exact Option.noConfusion hnv
      | some nv =>
        cases hlg : loosyGoosyJSON nv with
        | none =>
          have hred : recurseStep params (some sel) keyInput (some nv) =
              RecurseOutcome.mk params false := by
            rw [recurseStep, hrk]
            show (match loosyGoosyJSON nv with
              | none => RecurseOutcome.mk params false
              | some parsed => commitOutcome params key parsed) = _
            rw [hlg]
          rw [hred]
          refine ⟨⟨fun h => Bool.noConfusion h, ?_⟩, fun _ => rfl⟩
          rintro ⟨sel2, key2, nv2, j, -, -, hnv, hj⟩
          cases Option.some.inj hnv
          rw [hlg] at hj
          exact Option.noConfusion hj
        | some j =>
          have hrecursed : ∀ p2 k2 j2, (commitOutcome p2 k2 j2).recursed = true := by
            intro p2 k2 j2
            match j2 with
            | Json.str [] => rfl
            | Json.null => rfl
            | Json.bool b => rfl
            | Json.num n => rfl
            | Json.str (c :: s) => rfl
            | Json.arr xs => rfl
            | Json.obj fs => rfl
          have hred : recurseStep params (some sel) keyInput (some nv) =
              commitOutcome params key j := by
            rw [recurseStep, hrk]
            show (match loosyGoosyJSON nv with
              | none => RecurseOutcome.mk params false
              | some parsed => commitOutcome params key parsed) = _
            rw [hlg]
          rw [hred]
          refine ⟨⟨fun _ => ⟨sel, key, nv, j, rfl, hrk, rfl, hlg⟩,
            fun _ => hrecursed params key j⟩, ?_⟩
          intro hfalse
          rw [hrecursed params key j] at hfalse
          exact Bool.noConfusion hfalse

/-- Witness for C4 amended at concrete abort and commit inputs. -/
theorem recurse_iff_commit_witness :
    (recurseStep [] (some RecursePick.newParam) (some "k".data) none).parameters =
      [] ∧
    (recurseStep [] (some RecursePick.newParam) (some "k".data)
      (some "42".data)).recursed = true :=
  ⟨(recurse_iff_commit [] (some RecursePick.newParam) (some "k".data) none).2 rfl,
   (recurse_iff_commit [] (some RecursePick.newParam) (some "k".data)
     (some "42".data)).1.mpr
     ⟨RecursePick.newParam, "k".data, "42".data, Json.num 42, rfl, rfl, rfl, rfl⟩⟩

/-- C5 counterexample: the claim says the initial document persisted via
Serializer.encode (the writeFile payload, before interactive execution)
contains the two seed turns.  It does not: in every run the single
writeFile event carries the serialization of the empty document (zero
cells, empty parameter mapping), because the seed turns are inserted into
the already-opened notebook editor after the file is written and the
buffer is never written back.  Decoding the persisted payload yields a
document with no cells at all, so it carries neither a system-role seed
turn nor any user turn. -/
theorem initial_persist_empty :
    writeFilePayloads (translateDocument (some "doc".data) (some [])
        (some "French".data) none (some "/w".data)
        "2026-10-11T07:14:30.123Z".data []).events =
      ["\x7b\n  \"messages\": [],\n  \"parameters\": \x7b\x7d\n\x7d".data] ∧
    (deserializeNotebook
        "\x7b\n  \"messages\": [],\n  \"parameters\": \x7b\x7d\n\x7d".data).result =
      Except.ok { cells := [],
                  metadata := some (Json.obj [("parameters".data, Json.obj [])]) } :=
  ⟨rfl, rfl⟩

/-- C5 amended: on a run with a nonempty document id, a resolved workspace
folder and a preselected nonempty language, the command persists the EMPTY
document (the pretty-printed round trip of messages-nil, parameters-nil) to
the timestamped artifact name, and only afterwards builds the two seed
turns inside the open notebook editor: a system-role cell holding the
instruction templated with the resolved language, then an empty user-role
cell, which the per-chunk loop fills with the supplied content.  The final
trace and cells are exactly the setup events followed by the chunk loop
run from those two seed cells. -/
theorem translate_persists_empty_then_seeds (docId L folder isoNow runnerOut : List Char)
    (chunks : List (List Char)) (hid : docId ≠ []) (hlang : L ≠ []) :
    translateDocument (some docId) (some chunks) (some L) none (some folder)
        isoNow runnerOut =
      ⟨[DriverEvent.writeFile (llmFileName docId isoNow)
          "\x7b\n  \"messages\": [],\n  \"parameters\": \x7b\x7d\n\x7d".data,
        DriverEvent.showInformationMessage
          ("New .llm file created: ".data ++ llmFileName docId isoNow),
        DriverEvent.insertCodeCellBelow,
        DriverEvent.changeLanguage 0 "system".data,
        DriverEvent.appendContent 0 (sysInstruction L),
        DriverEvent.insertCodeCellBelow,
        DriverEvent.changeLanguage 1 "user".data] ++
        (runChunks runnerOut chunks
          [⟨"system".data, sysInstruction L⟩, ⟨"user".data, []⟩] []).2,
       (runChunks runnerOut chunks
          [⟨"system".data, sysInstruction L⟩, ⟨"user".data, []⟩] []).1⟩ := by
  have hL : resolveLanguage (some L) none = L := by
    simp only [resolveLanguage]
    rw [if_neg hlang]
  simp only [translateDocument, hL, if_neg hid]
  rfl

/-- Witness for C5 amended at concrete inputs. -/
theorem translate_persists_empty_then_seeds_witness :
    ("doc".data ≠ [] ∧ "French".data ≠ []) ∧
    translateDocument (some "doc".data) (some []) (some "French".data) none
        (some "/w".data) "2026-10-11T07:14:30.123Z".data [] =
      ⟨[DriverEvent.writeFile (llmFileName "doc".data "2026-10-11T07:14:30.123Z".data)
          "\x7b\n  \"messages\": [],\n  \"parameters\": \x7b\x7d\n\x7d".data,
        DriverEvent.showInformationMessage
          ("New .llm file created: ".data ++
            llmFileName "doc".data "2026-10-11T07:14:30.123Z".data),
        DriverEvent.insertCodeCellBelow,
        DriverEvent.changeLanguage 0 "system".data,
        DriverEvent.appendContent 0 (sysInstruction "French".data),
        DriverEvent.insertCodeCellBelow,
        DriverEvent.changeLanguage 1 "user".data] ++
        (runChunks [] []
          [⟨"system".data, sysInstruction "French".data⟩, ⟨"user".data, []⟩] []).2,
       (runChunks [] []
          [⟨"system".data, sysInstruction "French".data⟩, ⟨"user".data, []⟩] []).1⟩ :=
  ⟨⟨by decide, by decide⟩,
   translate_persists_empty_then_seeds "doc".data "French".data "/w".data
     "2026-10-11T07:14:30.123Z".data [] [] (by decide) (by decide)⟩

/-- C6: sequential per-chunk generation with empty chunks skipped: on the
content chunks a, empty, b the command trace shows exactly two user turns
created (the appendContent events at cells 1 and 3), the empty chunk
produces no event at all, and the execution of the turn for a
(executeCell 1) appears in the trace strictly before the turn for b is
appended and executed (appendContent 3, executeCell 3).  Every step of the
source is awaited before the next starts, so the single linear event list
is the complete concurrency behaviour: nothing runs concurrently or out of
order.  The final editor cells contain exactly the user turns a and b.
The effects of cell execution (the Runner reply cell and the fresh empty
user cell) are modelled from the spec, since ControllerFromRunner.ts and
OpenAiRunner.ts live outside src/. -/
theorem sequential_chunk_execution :
    (translateDocument (some "doc".data) (some ["a".data, [], "b".data])
        (some "fr".data) none (some "/w".data)
        "2026-10-11T07:14:30.123Z".data "OUT".data).events =
      [DriverEvent.writeFile "doc-20261011T071430Z.llm".data
         "\x7b\n  \"messages\": [],\n  \"parameters\": \x7b\x7d\n\x7d".data,
       DriverEvent.showInformationMessage
         "New .llm file created: doc-20261011T071430Z.llm".data,
       DriverEvent.insertCodeCellBelow,
       DriverEvent.changeLanguage 0 "system".data,
       DriverEvent.appendContent 0 (sysInstruction "fr".data),
       DriverEvent.insertCodeCellBelow,
       DriverEvent.changeLanguage 1 "user".data,
       DriverEvent.appendContent 1 "a".data,
       DriverEvent.executeCell 1,
       DriverEvent.appendContent 3 "b".data,
       DriverEvent.executeCell 3] ∧
    nonEmptyUserTurns (translateDocument (some "doc".data)
        (some ["a".data, [], "b".data]) (some "fr".data) none (some "/w".data)
        "2026-10-11T07:14:30.123Z".data "OUT".data).cells =
      ["a".data, "b".data] :=
  ⟨rfl, rfl⟩

/-- Empty input strips to nothing at any fuel. -/
theorem stripTsAux_nil (f : Nat) : stripTsAux f [] = [] := by
  cases f <;> rfl

/-- A colon is removed by the separator strip. -/
theorem stripTsAux_colon (f : Nat) (r : List Char) :
    stripTsAux (f + 1) (':' :: r) = stripTsAux f r := rfl

/-- A dash is removed by the separator strip. -/
theorem stripTsAux_dash (f : Nat) (r : List Char) :
    stripTsAux (f + 1) ('-' :: r) = stripTsAux f r := rfl

/-- The date-time separator T is kept by the strip. -/
theorem stripTsAux_T (f : Nat) (r : List Char) :
    stripTsAux (f + 1) ('T' :: r) = 'T' :: stripTsAux f r := rfl

/-- The zone designator Z is kept by the strip. -/
theorem stripTsAux_Z (f : Nat) (r : List Char) :
    stripTsAux (f + 1) ('Z' :: r) = 'Z' :: stripTsAux f r := rfl

/-- A digit is kept by the strip. -/
theorem stripTsAux_digit {c : Char} (h : c.isDigit = true) (f : Nat) (r : List Char) :
    stripTsAux (f + 1) (c :: r) = c :: stripTsAux f r := by
  obtain ⟨h1, h2⟩ := isDigit_iff_toNat.mp h
  have hA : ¬(c = ':' ∨ c = '-') := by
    rintro (rfl | rfl)
    · exact absurd h2 (by decide)
    · exact absurd h1 (by decide)
  have hB : c ≠ '.' := by
    rintro rfl
    exact absurd h1 (by decide)
  have hstep : stripTsAux (f + 1) (c :: r) =
      if c = ':' ∨ c = '-' then stripTsAux f r
      else if c = '.' then
        (match r with
         | d1 :: d2 :: d3 :: r2 =>
           if d1.isDigit && d2.isDigit && d3.isDigit then stripTsAux f r2
           else c :: stripTsAux f r
         | _ => c :: stripTsAux f r)
      else c :: stripTsAux f r := rfl
  rw [hstep, if_neg hA, if_neg hB]

/-- A dot followed by three digits is removed together with them. -/
theorem stripTsAux_dot {d1 d2 d3 : Char} (h1 : d1.isDigit = true)
    (h2 : d2.isDigit = true) (h3 : d3.isDigit = true) (f : Nat) (r : List Char) :
    stripTsAux (f + 1) ('.' :: (d1 :: d2 :: d3 :: r)) = stripTsAux f r := by
  rw [stripTsAux, if_neg (by decide : ¬('.' = ':' ∨ '.' = '-')), if_pos rfl]
  show (if d1.isDigit && d2.isDigit && d3.isDigit then stripTsAux f r
        else '.' :: stripTsAux f (d1 :: d2 :: d3 :: r)) = stripTsAux f r
  rw [h1, h2, h3]
  rfl

/-- A block of digits passes through the strip unchanged, consuming one
fuel unit per digit. -/
theorem stripTsAux_digits (ds : List Char) (hds : ∀ c ∈ ds, c.isDigit = true)
    (f : Nat) (r : List Char) :
    stripTsAux (ds.length + f) (ds ++ r) = ds ++ stripTsAux f r := by
  induction ds with
  | nil => simp
  | cons c t ih =>
    have hc : c.isDigit = true := hds c (List.mem_cons_self c t)
    have ht : ∀ x ∈ t, x.isDigit = true := fun x hx => hds x (List.mem_cons_of_mem c hx)
    rw [List.length_cons, List.cons_append, Nat.add_right_comm t.length 1 f,
      stripTsAux_digit hc (t.length + f) (t ++ r), ih ht, List.cons_append]

/-- The rendered ISO instant is 24 characters long. -/
theorem isoTimestamp_length (y mo d h mi s ms : Nat) :
    (isoTimestamp y mo d h mi s ms).length = 24 := by
  simp [isoTimestamp, pad4, pad2, pad3]

/-- Every character of a two-digit pad is a digit. -/
theorem pad2_digits (n : Nat) : ∀ c ∈ pad2 n, c.isDigit = true := by
  intro c hc
  simp only [pad2, List.mem_cons, List.not_mem_nil, or_false] at hc
  rcases hc with rfl | rfl
  · exact digitChar_isDigit (Nat.mod_lt _ (by omega))
  · exact digitChar_isDigit (Nat.mod_lt _ (by omega))

/-- Every character of a four-digit pad is a digit. -/
theorem pad4_digits (n : Nat) : ∀ c ∈ pad4 n, c.isDigit = true := by
  intro c hc
  simp only [pad4, List.mem_cons, List.not_mem_nil, or_false] at hc
  rcases hc with rfl | rfl | rfl | rfl <;>
    exact digitChar_isDigit (Nat.mod_lt _ (by omega))

/-- The separator strip of a rendered ISO instant removes exactly the two
dashes, the two colons and the dot with the three millisecond digits. -/
theorem stripTs_iso (y mo d h mi s ms : Nat) :
    stripTs (isoTimestamp y mo d h mi s ms) = strippedTimestamp y mo d h mi s := by
  rw [stripTs, isoTimestamp_length]
  exact (stripTsAux_digits _ (pad4_digits y) 20 _).trans
    (congrArg (pad4 y ++ ·)
      ((stripTsAux_dash 19 _).trans
        ((stripTsAux_digits _ (pad2_digits mo) 17 _).trans
          (congrArg (pad2 mo ++ ·)
            ((stripTsAux_dash 16 _).trans
              ((stripTsAux_digits _ (pad2_digits d) 14 _).trans
                (congrArg (pad2 d ++ ·)
                  ((stripTsAux_T 13 _).trans
                    (congrArg ('T' :: ·)
                      ((stripTsAux_digits _ (pad2_digits h) 11 _).trans
                        (congrArg (pad2 h ++ ·)
                          ((stripTsAux_colon 10 _).trans
                            ((stripTsAux_digits _ (pad2_digits mi) 8 _).trans
                              (congrArg (pad2 mi ++ ·)
                                ((stripTsAux_colon 7 _).trans
                                  ((stripTsAux_digits _ (pad2_digits s) 5 _).trans
                                    (congrArg (pad2 s ++ ·)
                                      ((stripTsAux_dot
                                          (digitChar_isDigit (Nat.mod_lt _ (by omega)))
                                          (digitChar_isDigit (Nat.mod_lt _ (by omega)))
                                          (digitChar_isDigit (Nat.mod_lt _ (by omega)))
                                          4 ['Z']).trans
                                        (stripTsAux_Z 3 [])))))))))))))))))))

/-- Digit characters are ordered as their digits. -/
theorem digitChar_lt {x y : Nat} (hy : y < 10) (h : x < y) :
    digitChar x < digitChar y := by
  have hx : x < 10 := by omega
  show (digitChar x).toNat < (digitChar y).toNat
  rw [digitChar_toNat hx, digitChar_toNat hy]
  omega

/-- Two-digit pads are strictly ordered as their values. -/
theorem pad2_lt {a b : Nat} (hb : b < 100) (h : a < b) :
    List.Lex (fun c1 c2 : Char => c1 < c2) (pad2 a) (pad2 b) := by
  rw [pad2, pad2]
  by_cases h1 : a / 10 = b / 10
  · rw [show digitChar (a / 10 % 10) = digitChar (b / 10 % 10) from by rw [h1]]
    exact List.Lex.cons
      (List.Lex.rel (@digitChar_lt (a % 10) (b % 10) (by omega) (by omega)))
  · exact List.Lex.rel
      (@digitChar_lt (a / 10 % 10) (b / 10 % 10) (by omega) (by omega))

/-- Four-digit pads are strictly ordered as their values. -/
theorem pad4_lt {a b : Nat} (hb : b < 10000) (h : a < b) :
    List.Lex (fun c1 c2 : Char => c1 < c2) (pad4 a) (pad4 b) := by
  rw [pad4, pad4]
  by_cases h3 : a / 1000 = b / 1000
  · rw [show digitChar (a / 1000 % 10) = digitChar (b / 1000 % 10) from by rw [h3]]
    refine List.Lex.cons ?_
    by_cases h2 : a / 100 = b / 100
    · rw [show digitChar (a / 100 % 10) = digitChar (b / 100 % 10) from by rw [h2]]
      refine List.Lex.cons ?_
      by_cases h1 : a / 10 = b / 10
      · rw [show digitChar (a / 10 % 10) = digitChar (b / 10 % 10) from by rw [h1]]
        exact List.Lex.cons
          (List.Lex.rel (@digitChar_lt (a % 10) (b % 10) (by omega) (by omega)))
      · exact List.Lex.rel
          (@digitChar_lt (a / 10 % 10) (b / 10 % 10) (by omega) (by omega))
    · exact List.Lex.rel
        (@digitChar_lt (a / 100 % 10) (b / 100 % 10) (by omega) (by omega))
  · exact List.Lex.rel
      (@digitChar_lt (a / 1000 % 10) (b / 1000 % 10) (by omega) (by omega))

/-- A shared front block preserves strict lexicographic order. -/
theorem lex_append_left {r : Char → Char → Prop} (p : List Char) {u v : List Char}
    (h : List.Lex r u v) : List.Lex r (p ++ u) (p ++ v) := by
  induction p with
  | nil => exact h
  | cons c t ih => exact List.Lex.cons ih

/-- Strict lexicographic order between equal-length blocks is preserved by
arbitrary suffixes. -/
theorem lex_append_of_lt {r : Char → Char → Prop} :
    ∀ {a b : List Char}, List.Lex r a b → a.length = b.length →
      ∀ u v : List Char, List.Lex r (a ++ u) (b ++ v)
  | _, _, List.Lex.nil, hlen, _, _ => absurd hlen (by simp)
  | _, _, List.Lex.rel hr, _, _, _ => List.Lex.rel hr
  | _, _, List.Lex.cons h, hlen, u, v =>
      List.Lex.cons (lex_append_of_lt h (by simpa using hlen) u v)

/-- Chronologically ordered instants give lexicographically ordered
stripped timestamps, whatever suffixes follow them. -/
theorem stripped_lt {y1 mo1 d1 h1 mi1 s1 y2 mo2 d2 h2 mi2 s2 : Nat}
    (u v : List Char) (hy : y2 < 10000) (hmo : mo2 < 100) (hd : d2 < 100)
    (hh : h2 < 100) (hmi : mi2 < 100) (hs : s2 < 100)
    (hk : chronKey y1 mo1 d1 h1 mi1 s1 < chronKey y2 mo2 d2 h2 mi2 s2) :
    List.Lex (fun c1 c2 : Char => c1 < c2)
      (strippedTimestamp y1 mo1 d1 h1 mi1 s1 ++ u)
      (strippedTimestamp y2 mo2 d2 h2 mi2 s2 ++ v) := by
  simp only [chronKey] at hk
  simp only [strippedTimestamp, List.append_assoc, List.cons_append, List.nil_append]
  by_cases hy12 : y1 = y2
  · subst hy12
    refine lex_append_left (pad4 y1) ?_
    by_cases hmo12 : mo1 = mo2
    · subst hmo12
      refine lex_append_left (pad2 mo1) ?_
      by_cases hd12 : d1 = d2
      · subst hd12
        refine lex_append_left (pad2 d1) ?_
        refine List.Lex.cons ?_
        by_cases hh12 : h1 = h2
        · subst hh12
          refine lex_append_left (pad2 h1) ?_
          by_cases hmi12 : mi1 = mi2
          · subst hmi12
            refine lex_append_left (pad2 mi1) ?_
            by_cases hs12 : s1 = s2
            · subst hs12
              exact absurd hk (by omega)
            · have hlt : s1 < s2 := by omega
              exact lex_append_of_lt (pad2_lt hs hlt) rfl _ _
          · have hlt : mi1 < mi2 := by omega
            exact lex_append_of_lt (pad2_lt hmi hlt) rfl _ _
        · have hlt : h1 < h2 := by omega
          exact lex_append_of_lt (pad2_lt hh hlt) rfl _ _
      · have hlt : d1 < d2 := by omega
        exact lex_append_of_lt (pad2_lt hd hlt) rfl _ _
    · have hlt : mo1 < mo2 := by omega
      exact lex_append_of_lt (pad2_lt hmo hlt) rfl _ _
  · have hlt : y1 < y2 := by omega
    exact lex_append_of_lt (pad4_lt hy hlt) rfl _ _

/-- C9: artifact naming: for every identity and rendered creation instant,
the persisted file name is the identity, a dash, the ISO-8601 instant with
the colon and dash separators and the dot-plus-three-digit millisecond
fraction removed, then the extension; concretely the instant
2026-10-11T07:14:30.123Z yields doc-20261011T071430Z.llm; and names built
from the same identity sort lexically by creation time: a chronologically
earlier instant gives a lexicographically smaller file name. -/
theorem artifact_naming (id : List Char)
    (y1 mo1 d1 h1 mi1 s1 ms1 y2 mo2 d2 h2 mi2 s2 ms2 : Nat)
    (hy2 : y2 < 10000) (hmo2 : mo2 < 100) (hd2 : d2 < 100) (hh2 : h2 < 100)
    (hmi2 : mi2 < 100) (hs2 : s2 < 100) :
    llmFileName id (isoTimestamp y1 mo1 d1 h1 mi1 s1 ms1) =
      id ++ ('-' :: strippedTimestamp y1 mo1 d1 h1 mi1 s1) ++ ".llm".data ∧
    llmFileName "doc".data "2026-10-11T07:14:30.123Z".data =
      "doc-20261011T071430Z.llm".data ∧
    (chronKey y1 mo1 d1 h1 mi1 s1 < chronKey y2 mo2 d2 h2 mi2 s2 →
      charListLt (llmFileName id (isoTimestamp y1 mo1 d1 h1 mi1 s1 ms1))
        (llmFileName id (isoTimestamp y2 mo2 d2 h2 mi2 s2 ms2))) := by
  refine ⟨?_, rfl, ?_⟩
  · rw [llmFileName, stripTs_iso]
  · intro hk
    simp only [charListLt, llmFileName]
    rw [stripTs_iso, stripTs_iso, List.append_assoc, List.append_assoc,
      List.cons_append, List.cons_append]
    exact lex_append_left id
      (List.Lex.cons (stripped_lt _ _ hy2 hmo2 hd2 hh2 hmi2 hs2 hk))

/-- Witness for C9 at the identity d and two concrete ordered instants. -/
theorem artifact_naming_witness :
    (2026 < 10000 ∧ 10 < 100 ∧ 11 < 100 ∧ 7 < 100 ∧ 14 < 100 ∧ 30 < 100) ∧
    chronKey 2025 1 2 3 4 5 < chronKey 2026 10 11 7 14 30 ∧
    llmFileName "d".data (isoTimestamp 2025 1 2 3 4 5 6) =
      "d".data ++ ('-' :: strippedTimestamp 2025 1 2 3 4 5) ++ ".llm".data ∧
    charListLt (llmFileName "d".data (isoTimestamp 2025 1 2 3 4 5 6))
      (llmFileName "d".data (isoTimestamp 2026 10 11 7 14 30 123)) :=
  ⟨⟨by decide, by decide, by decide, by decide, by decide, by decide⟩, by decide,
   (artifact_naming "d".data 2025 1 2 3 4 5 6 2026 10 11 7 14 30 123
     (by decide) (by decide) (by decide) (by decide) (by decide) (by decide)).1,
   (artifact_naming "d".data 2025 1 2 3 4 5 6 2026 10 11 7 14 30 123
     (by decide) (by decide) (by decide) (by decide) (by decide) (by decide)).2.2
     (by decide)⟩
